import Mathlib

/-!
# Verification of the carrier-war turn/spatial engine

Shallow embedding of the hex-grid geometry, the wavefront distance field,
the A* path planners, the order validation, the damage formula, the intel
time-to-live updates and the turn loop of the `carrier-war` repository
(`src/server/schemas.py`, `src/server/services/hexmap.py`,
`src/server/services/session.py`, `src/server/services/match.py`,
`src/server/services/turn.py`), together with proofs and refutations of
the specification claims about them.

Machine integers in the Python source are unbounded (`int`), so they are
embedded as `Int`/`Nat` directly.  Distances are always non-negative, so
the cube distance is embedded as a `Nat` (the Python `max(abs .., ..)`
of which it is the exact value).
-/

namespace CarrierWar

/-- `INF` sentinel for unreachable cells (`src/server/schemas.py`). -/
def INF : Nat := 10 ^ 8

/-- Offset hex coordinates (`Position` in `src/server/schemas.py`).
Coordinates are arbitrary integers; `(-1, -1)` is the invalid sentinel. -/
structure Position where
  x : Int
  y : Int
deriving DecidableEq, Repr

namespace Position

/-- `Position.invalid` (`schemas.py`). -/
def invalid : Position := ⟨-1, -1⟩

/-- `Position.is_valid` (`schemas.py`). -/
def is_valid (p : Position) : Bool := p.x ≥ 0 && p.y ≥ 0

/-- `Position.in_bounds` (`schemas.py`): `0 <= x < w and 0 <= y < h`. -/
def in_bounds (p : Position) (w h : Int) : Bool :=
  0 ≤ p.x && p.x < w && 0 ≤ p.y && p.y < h

/-- `Position._offset_to_axial` (`schemas.py`):
`q = col - ((row - (row & 1)) >> 1); r = row`.  For a Python `int`,
`row & 1` is `row % 2` (non-negative remainder) and `>> 1` is floor
division by 2; `row - row % 2` is even, so the division is exact and
agrees with Lean's `Int` division. -/
def offset_to_axial (col row : Int) : Int × Int :=
  (col - (row - row % 2) / 2, row)

/-- `Position._axial_to_cube` (`schemas.py`): `x = q, z = r, y = -x - z`. -/
def axial_to_cube (q r : Int) : Int × Int × Int :=
  (q, -q - r, r)

/-- `Position._cube_distance` (`schemas.py`):
`max(abs(ax-bx), abs(ay-by), abs(az-bz))`, as a `Nat`. -/
def cube_distance (a b : Int × Int × Int) : Nat :=
  max (a.1 - b.1).natAbs (max (a.2.1 - b.2.1).natAbs (a.2.2 - b.2.2).natAbs)

/-- Cube coordinates of an offset position (composition used by
`hex_distance`). -/
def cube (p : Position) : Int × Int × Int :=
  axial_to_cube (offset_to_axial p.x p.y).1 (offset_to_axial p.x p.y).2

/-- `Position.hex_distance` (`schemas.py`): convert both endpoints
offset→axial→cube and take the cube Chebyshev distance. -/
def hex_distance (a b : Position) : Nat :=
  cube_distance (cube a) (cube b)

/-- `Position.offset_neighbors` (`schemas.py`): the six parity-dependent
offset deltas, in source order. -/
def offset_neighbors (p : Position) : List Position :=
  (if p.y % 2 = 1 then
      [((1 : Int), (0 : Int)), (1, -1), (0, -1), (-1, 0), (0, 1), (1, 1)]
    else
      [(1, 0), (0, -1), (-1, -1), (-1, 0), (-1, 1), (0, 1)]).map
    (fun d => ⟨p.x + d.1, p.y + d.2⟩)

/-- `hex_distance` written out in coordinates (definitional). -/
theorem hex_distance_expand (ax ay bx b2 : Int) :
    hex_distance ⟨ax, ay⟩ ⟨bx, b2⟩ =
      max ((ax - (ay - ay % 2) / 2) - (bx - (b2 - b2 % 2) / 2)).natAbs
        (max ((-(ax - (ay - ay % 2) / 2) - ay) - (-(bx - (b2 - b2 % 2) / 2) - b2)).natAbs
          ((ay - b2)).natAbs) := rfl

theorem cube_distance_comm (a b : Int × Int × Int) :
    cube_distance a b = cube_distance b a := by
  obtain ⟨a1, a2, a3⟩ := a
  obtain ⟨b1, b2, b3⟩ := b
  simp only [cube_distance]
  omega

theorem cube_distance_eq_zero (a b : Int × Int × Int) :
    cube_distance a b = 0 ↔ a = b := by
  obtain ⟨a1, a2, a3⟩ := a
  obtain ⟨b1, b2, b3⟩ := b
  simp only [cube_distance, Prod.mk.injEq]
  omega

theorem cube_distance_triangle (a b c : Int × Int × Int) :
    cube_distance a c ≤ cube_distance a b + cube_distance b c := by
  obtain ⟨a1, a2, a3⟩ := a
  obtain ⟨b1, b2, b3⟩ := b
  obtain ⟨c1, c2, c3⟩ := c
  simp only [cube_distance]
  refine max_le ?_ (max_le ?_ ?_)
  · exact le_trans (by omega : (a1 - c1).natAbs ≤ (a1 - b1).natAbs + (b1 - c1).natAbs)
      (Nat.add_le_add (le_max_left _ _) (le_max_left _ _))
  · exact le_trans (by omega : (a2 - c2).natAbs ≤ (a2 - b2).natAbs + (b2 - c2).natAbs)
      (Nat.add_le_add (le_trans (le_max_left _ _) (le_max_right _ _))
        (le_trans (le_max_left _ _) (le_max_right _ _)))
  · exact le_trans (by omega : (a3 - c3).natAbs ≤ (a3 - b3).natAbs + (b3 - c3).natAbs)
      (Nat.add_le_add (le_trans (le_max_right _ _) (le_max_right _ _))
        (le_trans (le_max_right _ _) (le_max_right _ _)))

theorem hex_distance_comm (a b : Position) :
    hex_distance a b = hex_distance b a := cube_distance_comm _ _

theorem cube_injective (p q : Position) : cube p = cube q ↔ p = q := by
  obtain ⟨px, py⟩ := p
  obtain ⟨qx, qy⟩ := q
  simp only [cube, axial_to_cube, offset_to_axial, Prod.mk.injEq, Position.mk.injEq]
  omega

theorem hex_distance_eq_zero (a b : Position) :
    hex_distance a b = 0 ↔ a = b := by
  rw [hex_distance, cube_distance_eq_zero, cube_injective]

theorem hex_distance_triangle (a b c : Position) :
    hex_distance a c ≤ hex_distance a b + hex_distance b c :=
  cube_distance_triangle _ _ _

/-- The six axial-coordinate deltas of the hex neighborhood (parity-free
normal form used to relate the offset delta tables to the distance). -/
def axialDeltas : List (Int × Int) :=
  [(1, 0), (1, -1), (0, -1), (-1, 0), (-1, 1), (0, 1)]

theorem max_natAbs_eq_one_iff (s t u v : Int) :
    max (s - t).natAbs (max ((-s - u) - (-t - v)).natAbs (u - v).natAbs) = 1
      ↔ (t - s, v - u) ∈ axialDeltas := by
  simp only [axialDeltas, List.mem_cons, List.not_mem_nil, or_false, Prod.mk.injEq]
  omega

theorem mem_offset_neighbors_iff_axial (px py qx qy : Int) :
    (⟨qx, qy⟩ : Position) ∈ offset_neighbors ⟨px, py⟩ ↔
      ((qx - (qy - qy % 2) / 2) - (px - (py - py % 2) / 2), qy - py) ∈ axialDeltas := by
  constructor
  · intro hmem
    simp only [offset_neighbors] at hmem
    simp only [axialDeltas, List.mem_cons, List.not_mem_nil, or_false, Prod.mk.injEq]
    by_cases h : py % 2 = 1 <;>
      simp only [h, if_true, if_false, List.map_cons, List.map_nil, List.mem_cons,
        List.not_mem_nil, or_false, Position.mk.injEq] at hmem <;>
      rcases hmem with ⟨h1, h2⟩ | ⟨h1, h2⟩ | ⟨h1, h2⟩ | ⟨h1, h2⟩ | ⟨h1, h2⟩ | ⟨h1, h2⟩ <;>
      subst h1 <;> subst h2 <;> omega
  · intro hax
    simp only [axialDeltas, List.mem_cons, List.not_mem_nil, or_false, Prod.mk.injEq] at hax
    simp only [offset_neighbors]
    by_cases h : py % 2 = 1 <;>
      simp only [h, if_true, if_false, List.map_cons, List.map_nil, List.mem_cons,
        List.not_mem_nil, or_false, Position.mk.injEq] <;>
      rcases hax with ⟨h1, h2⟩ | ⟨h1, h2⟩ | ⟨h1, h2⟩ | ⟨h1, h2⟩ | ⟨h1, h2⟩ | ⟨h1, h2⟩ <;>
      omega

/-- Membership in the neighbor list is exactly "hex distance one". -/
theorem mem_offset_neighbors_iff (p q : Position) :
    q ∈ offset_neighbors p ↔ hex_distance p q = 1 := by
  obtain ⟨px, py⟩ := p
  obtain ⟨qx, qy⟩ := q
  rw [hex_distance_expand, mem_offset_neighbors_iff_axial, max_natAbs_eq_one_iff]

theorem offset_neighbors_length (p : Position) :
    (offset_neighbors p).length = 6 := by
  simp only [offset_neighbors]
  by_cases h : p.y % 2 = 1 <;> simp [h]

theorem offset_neighbors_nodup (p : Position) :
    (offset_neighbors p).Nodup := by
  obtain ⟨px, py⟩ := p
  simp only [offset_neighbors]
  by_cases h : py % 2 = 1 <;>
    simp only [h, if_true, if_false, List.map_cons, List.map_nil] <;>
    · refine List.nodup_cons.2 ⟨?_, ?_⟩
      · simp only [List.mem_cons, List.not_mem_nil, or_false, Position.mk.injEq]
        omega
      refine List.nodup_cons.2 ⟨?_, ?_⟩
      · simp only [List.mem_cons, List.not_mem_nil, or_false, Position.mk.injEq]
        omega
      refine List.nodup_cons.2 ⟨?_, ?_⟩
      · simp only [List.mem_cons, List.not_mem_nil, or_false, Position.mk.injEq]
        omega
      refine List.nodup_cons.2 ⟨?_, ?_⟩
      · simp only [List.mem_cons, List.not_mem_nil, or_false, Position.mk.injEq]
        omega
      refine List.nodup_cons.2 ⟨?_, ?_⟩
      · simp only [List.mem_cons, List.not_mem_nil, or_false, Position.mk.injEq]
        omega
      simp

/-- A neighbor cannot equal the center: the distance is 1, not 0. -/
theorem ne_of_mem_offset_neighbors {p q : Position}
    (h : q ∈ offset_neighbors p) : q ≠ p := by
  intro hq
  rw [mem_offset_neighbors_iff] at h
  rw [hq, hex_distance_eq_zero p p |>.2 rfl] at h
  exact absurd h (by simp)

end Position

/-- **C1.** `Position.hex_distance` is symmetric, zero exactly on equal
positions, and satisfies the triangle bound, for all integer offset
coordinates. -/
theorem C1_hex_distance_metric (a b c : Position) :
    Position.hex_distance a b = Position.hex_distance b a
      ∧ (Position.hex_distance a b = 0 ↔ a = b)
      ∧ Position.hex_distance a c ≤
          Position.hex_distance a b + Position.hex_distance b c :=
  ⟨Position.hex_distance_comm a b, Position.hex_distance_eq_zero a b,
    Position.hex_distance_triangle a b c⟩

/-- **C10.** `Position.offset_neighbors` yields exactly six pairwise
distinct positions; they are exactly the positions at hex distance 1
(hence the relation is symmetric); neighbors can fall outside any map
bounds, e.g. a neighbor of the origin is out of bounds for every map
size. -/
theorem C10_offset_neighbors_spec :
    (∀ p : Position, (Position.offset_neighbors p).length = 6)
      ∧ (∀ p : Position, (Position.offset_neighbors p).Nodup)
      ∧ (∀ p q : Position,
          q ∈ Position.offset_neighbors p ↔ Position.hex_distance p q = 1)
      ∧ (∀ p q : Position,
          q ∈ Position.offset_neighbors p ↔ p ∈ Position.offset_neighbors q)
      ∧ (∃ q ∈ Position.offset_neighbors ⟨0, 0⟩,
          ∀ w h : Int, q.in_bounds w h = false) := by
  refine ⟨Position.offset_neighbors_length, Position.offset_neighbors_nodup,
    Position.mem_offset_neighbors_iff, ?_, ?_⟩
  · intro p q
    rw [Position.mem_offset_neighbors_iff, Position.mem_offset_neighbors_iff,
      Position.hex_distance_comm]
  · refine ⟨⟨0, -1⟩, ?_, ?_⟩
    · simp [Position.offset_neighbors]
    · intro w h
      simp [Position.in_bounds]

/-! ## HexArray and the wavefront distance field (`hexmap.py`) -/

/-- `HexArray` (`hexmap.py`): a hex map stored as a 2-D list of ints,
`0` = sea (passable), non-zero = land. -/
structure HexArray where
  cells : List (List Int)

namespace HexArray

/-- Number of rows (`HexArray.H`). -/
def H (g : HexArray) : Nat := g.cells.length

/-- Number of columns (`HexArray.W`).  `set_map` enforces that all rows
have the same length, so the first row's length is it. -/
def W (g : HexArray) : Nat := (g.cells.headD []).length

/-- Well-formedness maintained by `set_map`: every row has length `W`. -/
def WF (g : HexArray) : Prop := ∀ row ∈ g.cells, row.length = g.W

/-- Cell lookup `self.__map[y][x]`.  Only ever used after a bounds check,
so the out-of-range default (land) is never observable. -/
def cellAt (g : HexArray) (x y : Int) : Int :=
  (g.cells.getD y.toNat []).getD x.toNat 1

/-- The local `passable` predicate shared by `gradient_field` and
`find_path` (`hexmap.py`): in bounds, and sea unless `ignore_land`. -/
def passable (g : HexArray) (il : Bool) (p : Position) : Bool :=
  decide (0 ≤ p.x ∧ p.x < (g.W : Int) ∧ 0 ≤ p.y ∧ p.y < (g.H : Int)) &&
    (il || decide (g.cellAt p.x p.y = 0))

end HexArray

/-- Read `dist[p.y][p.x]` from a 2-D `Nat` array; out-of-range reads
return `INF` (reads in the algorithms only happen in bounds). -/
def dget (d : List (List Nat)) (p : Position) : Nat :=
  if p.x < 0 ∨ p.y < 0 then INF
  else ((d[p.y.toNat]?.getD [])[p.x.toNat]?).getD INF

/-- Write `dist[p.y][p.x] = v`; out-of-range writes are dropped (writes
in the algorithms only happen in bounds). -/
def dset (d : List (List Nat)) (p : Position) (v : Nat) : List (List Nat) :=
  if p.x < 0 ∨ p.y < 0 then d
  else d.set p.y.toNat ((d[p.y.toNat]?.getD []).set p.x.toNat v)

/-- Integer interval `[lo, hi)` as a list (Python `range` with int
endpoints). -/
def intRange (lo hi : Int) : List Int :=
  (List.range (hi - lo).toNat).map (fun (i : Nat) => lo + (i : Int))

namespace HexArray

/-- The multi-source seed pass of `gradient_field` (`hexmap.py`): scan the
window `[gy-(R+2), gy+(R+3)) × [gx-(R+2), gx+(R+3))` clipped to the map
and keep the passable cells within hex distance `R` of the goal, in scan
order. -/
def seedList (g : HexArray) (goal : Position) (il : Bool) (R : Nat) : List Position :=
  (intRange (max 0 (goal.y - (R + 2))) (min (g.H : Int) (goal.y + (R + 3)))).flatMap
    (fun y =>
      (intRange (max 0 (goal.x - (R + 2))) (min (g.W : Int) (goal.x + (R + 3)))).filterMap
        (fun x =>
          if goal.hex_distance ⟨x, y⟩ ≤ R ∧ g.passable il ⟨x, y⟩ then some ⟨x, y⟩
          else none))

end HexArray

/-- Total of all entries of the distance array (termination measure
component). -/
def dsum (d : List (List Nat)) : Nat := (d.map List.sum).sum

/-- Termination measure of the wavefront loop: every relaxation lowers
`dsum` by at least one while appending at most six queue entries, and a
pop shortens the queue. -/
def bfsMeasure (d : List (List Nat)) (q : List Position) : Nat :=
  7 * dsum d + q.length

/-- The neighbor relaxation pass of one `gradient_field` loop iteration:
for each neighbor in order, if passable and its stored distance exceeds
`cd + 1`, lower it and append the neighbor to the queue. -/
def relaxAll (g : HexArray) (il : Bool) (cd : Nat) :
    List Position → List (List Nat) → List Position →
      List (List Nat) × List Position
  | [], dist, q => (dist, q)
  | np :: rest, dist, q =>
      if g.passable il np then
        if dget dist np > cd + 1 then
          relaxAll g il cd rest (dset dist np (cd + 1)) (q ++ [np])
        else relaxAll g il cd rest dist q
      else relaxAll g il cd rest dist q

/-- The `while q:` loop of `gradient_field` (`hexmap.py`), with explicit
fuel (the callers pass more fuel than the measure, which provably
suffices). -/
def bfsLoop (g : HexArray) (il : Bool) :
    Nat → List (List Nat) → List Position → List (List Nat)
  | 0, dist, _ => dist
  | _ + 1, dist, [] => dist
  | fuel + 1, dist, cp :: rest =>
      let s := relaxAll g il (dget dist cp) cp.offset_neighbors dist rest
      bfsLoop g il fuel s.1 s.2

namespace HexArray

/-- `HexArray.gradient_field` (`hexmap.py`): seed every passable cell
within `stop_range` of `goal` (falling back to the goal cell if the seed
scan found nothing), then run the breadth-first relaxation loop. -/
def gradient_field (g : HexArray) (goal : Position) (il : Bool)
    (stop_range : Int) : List (List Nat) :=
  if g.seedList goal il (max 0 stop_range).toNat = [] then
    if g.passable il goal then
      bfsLoop g il
        (bfsMeasure (dset (List.replicate g.H (List.replicate g.W INF)) goal 0) [goal] + 1)
        (dset (List.replicate g.H (List.replicate g.W INF)) goal 0) [goal]
    else List.replicate g.H (List.replicate g.W INF)
  else
    bfsLoop g il
      (bfsMeasure
        ((g.seedList goal il (max 0 stop_range).toNat).foldl (fun d p => dset d p 0)
          (List.replicate g.H (List.replicate g.W INF)))
        (g.seedList goal il (max 0 stop_range).toNat) + 1)
      ((g.seedList goal il (max 0 stop_range).toNat).foldl (fun d p => dset d p 0)
        (List.replicate g.H (List.replicate g.W INF)))
      (g.seedList goal il (max 0 stop_range).toNat)

/-- Row-major scan of all map cells (`for y ... for x ...`). -/
def allCells (g : HexArray) : List Position :=
  (intRange 0 g.H).flatMap (fun y => (intRange 0 g.W).map (fun x => (⟨x, y⟩ : Position)))

/-- `HexArray.validate_sea_connectivity` (`hexmap.py`): take the last sea
cell of a row-major scan, build its distance field, and require every sea
cell to be reached. -/
def validate_sea_connectivity (g : HexArray) : Bool :=
  match ((g.allCells).filter (fun p => g.cellAt p.x p.y == 0)).getLast? with
  | none => false
  | some sea_pos =>
      let dist := g.gradient_field sea_pos false 0
      ((g.allCells).filter (fun p => g.cellAt p.x p.y == 0)).all
        (fun p => !(dget dist p == INF))

end HexArray

/-! ### Array access lemmas -/

theorem mem_intRange {lo hi z : Int} : z ∈ intRange lo hi ↔ lo ≤ z ∧ z < hi := by
  constructor
  · intro hm
    obtain ⟨i, hir, hiz⟩ := List.mem_map.mp hm
    have hilt : i < (hi - lo).toNat := List.mem_range.mp hir
    omega
  · intro h
    exact List.mem_map.mpr ⟨(z - lo).toNat, List.mem_range.mpr (by omega), by omega⟩

/-- In-range predicate for a position in a 2-D array. -/
def InShape (d : List (List Nat)) (p : Position) : Prop :=
  0 ≤ p.x ∧ 0 ≤ p.y ∧ p.y.toNat < d.length ∧
    p.x.toNat < (d[p.y.toNat]?.getD []).length

theorem dget_dset_self {d : List (List Nat)} {p : Position} {v : Nat}
    (h : InShape d p) : dget (dset d p v) p = v := by
  obtain ⟨h1, h2, h3, h4⟩ := h
  simp only [dget, dset, if_neg (by omega : ¬(p.x < 0 ∨ p.y < 0))]
  rw [List.getElem?_set_self (by simpa using h3), Option.getD_some,
    List.getElem?_set_self (by simpa using h4), Option.getD_some]

theorem dget_dset_ne {d : List (List Nat)} {p q : Position} {v : Nat}
    (hne : q ≠ p) : dget (dset d p v) q = dget d q := by
  obtain ⟨qx, qy⟩ := q
  obtain ⟨px, py⟩ := p
  simp only [ne_eq, Position.mk.injEq, not_and] at hne
  by_cases hp : px < 0 ∨ py < 0
  · simp only [dset, if_pos hp]
  by_cases hq : qx < 0 ∨ qy < 0
  · simp only [dget, dset, if_pos hq]
  simp only [dget, dset, if_neg hp, if_neg hq]
  by_cases hy : qy.toNat = py.toNat
  · have hx : px.toNat ≠ qx.toNat := by omega
    rw [hy]
    by_cases hlen : py.toNat < d.length
    · rw [List.getElem?_set_self (by simpa using hlen), Option.getD_some,
        List.getElem?_set_ne hx]
    · rw [List.set_eq_of_length_le (by omega)]
  · rw [List.getElem?_set_ne (fun hc => hy hc.symm)]

theorem dget_dset_le {d : List (List Nat)} {p : Position} {v : Nat}
    (hs : InShape d p) (h : v ≤ dget d p) (q : Position) :
    dget (dset d p v) q ≤ dget d q := by
  by_cases hq : q = p
  · subst hq
    rw [dget_dset_self hs]
    exact h
  · rw [dget_dset_ne hq]

/-! ### Specification of the wavefront: seeds and reachability -/

/-- A seed cell of `gradient_field`: passable and within `R` of the goal. -/
def IsSeed (g : HexArray) (il : Bool) (goal : Position) (R : Nat) (p : Position) : Prop :=
  g.passable il p = true ∧ Position.hex_distance goal p ≤ R

/-- `Reach g il goal R k p`: there is a walk of `k` passable
offset-neighbor steps from some seed cell to `p`. -/
inductive Reach (g : HexArray) (il : Bool) (goal : Position) (R : Nat) :
    Nat → Position → Prop
  | seed {p} : IsSeed g il goal R p → Reach g il goal R 0 p
  | step {k d p} : Reach g il goal R k d → p ∈ Position.offset_neighbors d →
      g.passable il p = true → Reach g il goal R (k + 1) p

theorem Reach.passable {g il goal R k p} (h : Reach g il goal R k p) :
    g.passable il p = true := by
  cases h with
  | seed hs => exact hs.1
  | step _ _ hp => exact hp

/-- Cells within hex distance `R` of `g` have both coordinates within `R`
(so the seed-scan window with margin `R + 2` covers them all). -/
theorem hex_distance_coord_bound {g c : Position} {R : Nat}
    (h : Position.hex_distance g c ≤ R) :
    (c.x - g.x).natAbs ≤ R ∧ (c.y - g.y).natAbs ≤ R := by
  obtain ⟨gx, gy⟩ := g
  obtain ⟨cx, cy⟩ := c
  rw [Position.hex_distance_expand] at h
  show (cx - gx).natAbs ≤ R ∧ (cy - gy).natAbs ≤ R
  omega

theorem passable_bounds {g : HexArray} {il : Bool} {p : Position}
    (h : g.passable il p = true) :
    0 ≤ p.x ∧ p.x < (g.W : Int) ∧ 0 ≤ p.y ∧ p.y < (g.H : Int) := by
  simp only [HexArray.passable, Bool.and_eq_true, decide_eq_true_eq] at h
  exact h.1

/-- The seed scan finds exactly the passable cells within `R` of the
goal: the window margin provably suffices. -/
theorem mem_seedList_iff {g : HexArray} {goal : Position} {il : Bool} {R : Nat}
    {p : Position} :
    p ∈ g.seedList goal il R ↔ IsSeed g il goal R p := by
  simp only [HexArray.seedList, List.mem_flatMap, List.mem_filterMap, mem_intRange]
  constructor
  · rintro ⟨y, hy, x, hx, hcond⟩
    by_cases hc : Position.hex_distance goal ⟨x, y⟩ ≤ R ∧ g.passable il ⟨x, y⟩ = true
    · rw [if_pos hc] at hcond
      cases hcond
      exact ⟨hc.2, hc.1⟩
    · rw [if_neg (by simpa using hc)] at hcond
      cases hcond
  · rintro ⟨hpass, hdist⟩
    obtain ⟨hx0, hxW, hy0, hyH⟩ := passable_bounds hpass
    obtain ⟨hbx, hby⟩ := hex_distance_coord_bound hdist
    refine ⟨p.y, by omega, p.x, by omega, ?_⟩
    rw [if_pos ⟨by simpa using hdist, by simpa using hpass⟩]

/-- If no cell at all is a seed, nothing is reachable. -/
theorem not_reach_of_no_seed {g : HexArray} {il : Bool} {goal : Position} {R : Nat}
    (h : ∀ p, ¬IsSeed g il goal R p) : ∀ k p, ¬Reach g il goal R k p := by
  intro k
  induction k with
  | zero =>
      intro p hr
      cases hr with
      | seed hs => exact h _ hs
  | succ n ih =>
      intro p hr
      cases hr with
      | step hd _ _ => exact ih _ hd

/-! ### Shape and sum lemmas for the distance array -/

/-- 2-D shape predicate: `Hn` rows, each of length `Wn`. -/
def Shape2 (d : List (List Nat)) (Wn Hn : Nat) : Prop :=
  d.length = Hn ∧ ∀ row ∈ d, row.length = Wn

theorem shape2_replicate (Wn Hn : Nat) :
    Shape2 (List.replicate Hn (List.replicate Wn INF)) Wn Hn := by
  constructor
  · simp
  · intro row hrow
    rw [List.eq_of_mem_replicate hrow]
    simp

theorem shape2_dset {d : List (List Nat)} {Wn Hn : Nat} {p : Position} {v : Nat}
    (h : Shape2 d Wn Hn) : Shape2 (dset d p v) Wn Hn := by
  obtain ⟨h1, h2⟩ := h
  unfold dset
  split
  · exact ⟨h1, h2⟩
  · by_cases hy : p.y.toNat < d.length
    · constructor
      · simp [h1]
      · intro row hrow
        rcases List.mem_or_eq_of_mem_set hrow with hmem | rfl
        · exact h2 _ hmem
        · rw [List.length_set, List.getElem?_eq_getElem hy, Option.getD_some]
          exact h2 _ (List.getElem_mem hy)
    · rw [List.set_eq_of_length_le (by omega)]
      exact ⟨h1, h2⟩

theorem passable_inShape {g : HexArray} {il : Bool} {p : Position}
    {d : List (List Nat)} (hs : Shape2 d g.W g.H) (hp : g.passable il p = true) :
    InShape d p := by
  obtain ⟨hx0, hxW, hy0, hyH⟩ := passable_bounds hp
  obtain ⟨h1, h2⟩ := hs
  have hy : p.y.toNat < d.length := by omega
  refine ⟨hx0, hy0, hy, ?_⟩
  rw [List.getElem?_eq_getElem hy, Option.getD_some, h2 _ (List.getElem_mem hy)]
  omega

theorem dget_replicate_INF (Wn Hn : Nat) (p : Position) :
    dget (List.replicate Hn (List.replicate Wn INF)) p = INF := by
  unfold dget
  split
  · rfl
  · by_cases hy : p.y.toNat < Hn
    · rw [List.getElem?_replicate, if_pos hy, Option.getD_some]
      by_cases hx : p.x.toNat < Wn
      · rw [List.getElem?_replicate, if_pos hx, Option.getD_some]
      · rw [List.getElem?_eq_none (by simpa using hx), Option.getD_none]
    · have hnone : (List.replicate Hn (List.replicate Wn INF))[p.y.toNat]? = none :=
        List.getElem?_eq_none (by simpa using hy)
      rw [hnone, Option.getD_none, List.getElem?_nil, Option.getD_none]

theorem sum_set_nat (l : List Nat) (n : Nat) (a : Nat) (h : n < l.length) :
    (l.set n a).sum + l.getD n 0 = l.sum + a := by
  induction l generalizing n with
  | nil => simp at h
  | cons hd tl ih =>
      cases n with
      | zero => simp [List.getD_cons_zero]; omega
      | succ m =>
          simp only [List.set_cons_succ, List.sum_cons, List.getD_cons_succ]
          have := ih m (by simpa using h)
          omega

theorem dsum_dset {d : List (List Nat)} {p : Position} {v : Nat}
    (hs : InShape d p) : dsum (dset d p v) + dget d p = dsum d + v := by
  obtain ⟨h1, h2, h3, h4⟩ := hs
  simp only [dset, dget, if_neg (by omega : ¬(p.x < 0 ∨ p.y < 0)), dsum]
  rw [List.map_set]
  have hrow : d[p.y.toNat]?.getD [] = d[p.y.toNat] := by
    rw [List.getElem?_eq_getElem h3, Option.getD_some]
  have hmap : (d.map List.sum).getD p.y.toNat 0 = List.sum d[p.y.toNat] := by
    rw [List.getD_eq_getElem?_getD, List.getElem?_map,
      List.getElem?_eq_getElem h3]
    rfl
  have h4' : p.x.toNat < d[p.y.toNat].length := by rwa [hrow] at h4
  have hinner : ((d[p.y.toNat]?.getD []).set p.x.toNat v).sum
      + d[p.y.toNat].getD p.x.toNat 0 = List.sum d[p.y.toNat] + v := by
    rw [hrow]
    exact sum_set_nat _ _ _ h4'
  have houter := sum_set_nat (d.map List.sum) p.y.toNat
    ((d[p.y.toNat]?.getD []).set p.x.toNat v).sum (by simpa using h3)
  rw [hmap] at houter
  have hget : (d[p.y.toNat]?.getD [])[p.x.toNat]?.getD INF
      = d[p.y.toNat].getD p.x.toNat 0 := by
    rw [hrow, List.getD_eq_getElem?_getD, List.getElem?_eq_getElem h4']
    simp
  rw [hget]
  omega

/-! ### Correctness of the wavefront relaxation -/

/-- What one neighbor-relaxation pass guarantees. -/
structure RelaxOut (g : HexArray) (il : Bool) (goal : Position) (R : Nat)
    (cd : Nat) (nps : List Position) (dist : List (List Nat)) (q : List Position)
    (r : List (List Nat) × List Position) : Prop where
  shape : Shape2 r.1 g.W g.H
  mono : ∀ p, dget r.1 p ≤ dget dist p
  le_inf : ∀ p, dget r.1 p ≤ INF
  sub : ∀ p ∈ q, p ∈ r.2
  origin : ∀ p ∈ r.2, p ∈ q ∨ (p ∈ nps ∧ g.passable il p = true)
  fin : ∀ p ∈ r.2, dget r.1 p < INF
  sound : ∀ p, dget r.1 p < INF → ∃ k ≤ dget r.1 p, Reach g il goal R k p
  relaxed : ∀ np ∈ nps, g.passable il np = true → dget r.1 np ≤ cd + 1
  changed : ∀ p, dget r.1 p < dget dist p → p ∈ r.2
  frozen : ∀ p, p ∉ nps → dget r.1 p = dget dist p
  meas : 7 * dsum r.1 + r.2.length ≤ 7 * dsum dist + q.length

theorem relaxAll_spec (g : HexArray) (il : Bool) (goal : Position) (R : Nat)
    (cd : Nat) :
    ∀ (nps : List Position) (dist : List (List Nat)) (q : List Position),
      Shape2 dist g.W g.H →
      (∀ p, dget dist p ≤ INF) →
      (∀ p ∈ q, dget dist p < INF) →
      (∀ p, dget dist p < INF → ∃ k ≤ dget dist p, Reach g il goal R k p) →
      (∀ np ∈ nps, g.passable il np = true → ∃ k ≤ cd + 1, Reach g il goal R k np) →
      RelaxOut g il goal R cd nps dist q (relaxAll g il cd nps dist q)
  | [], dist, q, hshape, hinf, hfin, hsound, _ => by
      refine ⟨hshape, fun p => le_rfl, hinf, fun p hp => hp, fun p hp => Or.inl hp,
        hfin, hsound, by simp, fun p hlt => absurd hlt (by simp [relaxAll]), fun p _ => rfl, le_rfl⟩
  | np :: rest, dist, q, hshape, hinf, hfin, hsound, hnps => by
      by_cases hpass : g.passable il np = true
      · by_cases hgt : dget dist np > cd + 1
        · -- relax: lower the neighbor and push it
          have hstep : relaxAll g il cd (np :: rest) dist q
              = relaxAll g il cd rest (dset dist np (cd + 1)) (q ++ [np]) := by
            simp [relaxAll, hpass, hgt]
          have hins : InShape dist np := passable_inShape hshape hpass
          have hlt_inf : cd + 1 < INF := lt_of_lt_of_le hgt (hinf np)
          have hset_self : dget (dset dist np (cd + 1)) np = cd + 1 :=
            dget_dset_self hins
          have hset_le : ∀ p, dget (dset dist np (cd + 1)) p ≤ dget dist p :=
            dget_dset_le hins (by omega)
          have hshape1 : Shape2 (dset dist np (cd + 1)) g.W g.H := shape2_dset hshape
          have hinf1 : ∀ p, dget (dset dist np (cd + 1)) p ≤ INF :=
            fun p => le_trans (hset_le p) (hinf p)
          have hfin1 : ∀ p ∈ q ++ [np], dget (dset dist np (cd + 1)) p < INF := by
            intro p hp
            rcases List.mem_append.mp hp with hp | hp
            · exact lt_of_le_of_lt (hset_le p) (hfin p hp)
            · rw [List.mem_singleton.mp hp, hset_self]
              exact hlt_inf
          have hsound1 : ∀ p, dget (dset dist np (cd + 1)) p < INF →
              ∃ k ≤ dget (dset dist np (cd + 1)) p, Reach g il goal R k p := by
            intro p hp
            by_cases hpn : p = np
            · subst hpn
              rw [hset_self] at hp ⊢
              exact hnps p (List.mem_cons_self _ _) hpass
            · rw [dget_dset_ne hpn] at hp ⊢
              exact hsound p hp
          have ih := relaxAll_spec g il goal R cd rest (dset dist np (cd + 1))
            (q ++ [np]) hshape1 hinf1 hfin1 hsound1
            (fun n hn hpn => hnps n (List.mem_cons_of_mem _ hn) hpn)
          rw [hstep]
          refine ⟨ih.shape, ?_, ih.le_inf, ?_, ?_, ih.fin, ih.sound, ?_, ?_, ?_, ?_⟩
          · exact fun p => le_trans (ih.mono p) (hset_le p)
          · exact fun p hp => ih.sub p (List.mem_append_left _ hp)
          · intro p hp
            rcases ih.origin p hp with hp' | hp'
            · rcases List.mem_append.mp hp' with hp'' | hp''
              · exact Or.inl hp''
              · exact Or.inr ⟨by rw [List.mem_singleton.mp hp'']; exact
                  List.mem_cons_self _ _, by rw [List.mem_singleton.mp hp'']; exact hpass⟩
            · exact Or.inr ⟨List.mem_cons_of_mem _ hp'.1, hp'.2⟩
          · intro n hn hpn
            rcases List.mem_cons.mp hn with rfl | hn'
            · exact le_trans (ih.mono n) (le_of_eq hset_self)
            · exact ih.relaxed n hn' hpn
          · intro p hlt
            by_cases hch : dget (relaxAll g il cd rest (dset dist np (cd + 1))
                (q ++ [np])).1 p < dget (dset dist np (cd + 1)) p
            · exact ih.changed p hch
            · have heq : dget (relaxAll g il cd rest (dset dist np (cd + 1))
                  (q ++ [np])).1 p = dget (dset dist np (cd + 1)) p :=
                le_antisymm (ih.mono p) (not_lt.mp hch)
              have hpn : p = np := by
                by_contra hne
                rw [heq, dget_dset_ne hne] at hlt
                exact lt_irrefl _ hlt
              subst hpn
              exact ih.sub p (List.mem_append_right _ (List.mem_singleton_self _))
          · intro p hpn
            have hne : p ≠ np := fun hc => hpn (hc ▸ List.mem_cons_self _ _)
            rw [ih.frozen p (fun hc => hpn (List.mem_cons_of_mem _ hc)),
              dget_dset_ne hne]
          · have hds := dsum_dset (v := cd + 1) hins
            have hq1 : (q ++ [np]).length = q.length + 1 := by simp
            have := ih.meas
            rw [hq1] at this
            omega
        · have hstep : relaxAll g il cd (np :: rest) dist q
              = relaxAll g il cd rest dist q := by
            simp [relaxAll, hpass, hgt]
          have ih := relaxAll_spec g il goal R cd rest dist q hshape hinf hfin hsound
            (fun n hn hpn => hnps n (List.mem_cons_of_mem _ hn) hpn)
          rw [hstep]
          refine ⟨ih.shape, ih.mono, ih.le_inf, ih.sub, ?_, ih.fin, ih.sound, ?_,
            ih.changed, ?_, ih.meas⟩
          · intro p hp
            rcases ih.origin p hp with hp' | hp'
            · exact Or.inl hp'
            · exact Or.inr ⟨List.mem_cons_of_mem _ hp'.1, hp'.2⟩
          · intro n hn hpn
            rcases List.mem_cons.mp hn with rfl | hn'
            · exact le_trans (ih.mono n) (by omega)
            · exact ih.relaxed n hn' hpn
          · intro p hpn
            exact ih.frozen p (fun hc => hpn (List.mem_cons_of_mem _ hc))
      · have hstep : relaxAll g il cd (np :: rest) dist q
            = relaxAll g il cd rest dist q := by
          simp [relaxAll, hpass]
        have ih := relaxAll_spec g il goal R cd rest dist q hshape hinf hfin hsound
          (fun n hn hpn => hnps n (List.mem_cons_of_mem _ hn) hpn)
        rw [hstep]
        refine ⟨ih.shape, ih.mono, ih.le_inf, ih.sub, ?_, ih.fin, ih.sound, ?_,
          ih.changed, ?_, ih.meas⟩
        · intro p hp
          rcases ih.origin p hp with hp' | hp'
          · exact Or.inl hp'
          · exact Or.inr ⟨List.mem_cons_of_mem _ hp'.1, hp'.2⟩
        · intro n hn hpn
          rcases List.mem_cons.mp hn with rfl | hn'
          · exact absurd hpn hpass
          · exact ih.relaxed n hn' hpn
        · intro p hpn
          exact ih.frozen p (fun hc => hpn (List.mem_cons_of_mem _ hc))

/-- Loop invariant of the wavefront `while` loop. -/
structure BfsInv (g : HexArray) (il : Bool) (goal : Position) (R : Nat)
    (dist : List (List Nat)) (q : List Position) : Prop where
  shape : Shape2 dist g.W g.H
  le_inf : ∀ p, dget dist p ≤ INF
  q_pass : ∀ p ∈ q, g.passable il p = true
  q_fin : ∀ p ∈ q, dget dist p < INF
  seeds0 : ∀ p, IsSeed g il goal R p → dget dist p = 0
  sound : ∀ p, dget dist p < INF → ∃ k ≤ dget dist p, Reach g il goal R k p
  relax : ∀ p, p ∈ q ∨ ∀ np ∈ Position.offset_neighbors p,
      g.passable il np = true → dget dist np ≤ dget dist p + 1

/-- What the finished wavefront satisfies: zero on seeds, a sound reach
witness for every finite entry, and minimality over all reach lengths. -/
structure BfsPost (g : HexArray) (il : Bool) (goal : Position) (R : Nat)
    (dist : List (List Nat)) : Prop where
  shape : Shape2 dist g.W g.H
  le_inf : ∀ p, dget dist p ≤ INF
  seeds0 : ∀ p, IsSeed g il goal R p → dget dist p = 0
  sound : ∀ p, dget dist p < INF → ∃ k ≤ dget dist p, Reach g il goal R k p
  complete : ∀ k p, Reach g il goal R k p → dget dist p ≤ k

theorem reach_le_of_relax {g : HexArray} {il : Bool} {goal : Position} {R : Nat}
    {dist : List (List Nat)}
    (hseeds : ∀ p, IsSeed g il goal R p → dget dist p = 0)
    (hrel : ∀ p, ∀ np ∈ Position.offset_neighbors p,
      g.passable il np = true → dget dist np ≤ dget dist p + 1) :
    ∀ k p, Reach g il goal R k p → dget dist p ≤ k := by
  intro k p hr
  induction hr with
  | seed hs => exact le_of_eq (hseeds _ hs)
  | step hd hmem hp ih =>
      exact le_trans (hrel _ _ hmem hp) (by omega)

theorem bfsLoop_post (g : HexArray) (il : Bool) (goal : Position) (R : Nat) :
    ∀ (fuel : Nat) (dist : List (List Nat)) (q : List Position),
      BfsInv g il goal R dist q → bfsMeasure dist q < fuel →
      BfsPost g il goal R (bfsLoop g il fuel dist q) := by
  intro fuel
  induction fuel with
  | zero => intro dist q _ hm; exact absurd hm (by omega)
  | succ n ih =>
      intro dist q hinv hm
      match q with
      | [] =>
          refine ⟨hinv.shape, hinv.le_inf, hinv.seeds0, hinv.sound, ?_⟩
          refine reach_le_of_relax hinv.seeds0 ?_
          intro p
          rcases hinv.relax p with hp | hp
          · exact absurd hp (List.not_mem_nil p)
          · exact hp
      | cp :: rest =>
          have hcp_pass : g.passable il cp = true :=
            hinv.q_pass cp (List.mem_cons_self _ _)
          have hcd_fin : dget dist cp < INF := hinv.q_fin cp (List.mem_cons_self _ _)
          have hnps : ∀ np ∈ Position.offset_neighbors cp,
              g.passable il np = true →
              ∃ k ≤ dget dist cp + 1, Reach g il goal R k np := by
            intro np hmem hp
            obtain ⟨k, hk, hr⟩ := hinv.sound cp hcd_fin
            exact ⟨k + 1, by omega, Reach.step hr hmem hp⟩
          have ro := relaxAll_spec g il goal R (dget dist cp)
            cp.offset_neighbors dist rest hinv.shape hinv.le_inf
            (fun p hp => hinv.q_fin p (List.mem_cons_of_mem _ hp)) hinv.sound hnps
          set r := relaxAll g il (dget dist cp) cp.offset_neighbors dist rest with hr
          have hcp_frozen : dget r.1 cp = dget dist cp :=
            ro.frozen cp (fun hc => (Position.ne_of_mem_offset_neighbors hc) rfl)
          have hinv' : BfsInv g il goal R r.1 r.2 := by
            refine ⟨ro.shape, ro.le_inf, ?_, ro.fin, ?_, ro.sound, ?_⟩
            · intro p hp
              rcases ro.origin p hp with hp' | hp'
              · exact hinv.q_pass p (List.mem_cons_of_mem _ hp')
              · exact hp'.2
            · intro p hp
              have h0 := hinv.seeds0 p hp
              have := ro.mono p
              omega
            · intro p
              by_cases hpcp : p = cp
              · subst hpcp
                refine Or.inr ?_
                intro np hmem hp
                rw [hcp_frozen]
                exact ro.relaxed np hmem hp
              · rcases hinv.relax p with hp | hp
                · rcases List.mem_cons.mp hp with rfl | hp'
                  · exact absurd rfl hpcp
                  · exact Or.inl (ro.sub p hp')
                · by_cases hch : dget r.1 p < dget dist p
                  · exact Or.inl (ro.changed p hch)
                  · have heq : dget r.1 p = dget dist p :=
                      le_antisymm (ro.mono p) (not_lt.mp hch)
                    refine Or.inr ?_
                    intro np hmem hpn
                    rw [heq]
                    exact le_trans (ro.mono np) (hp np hmem hpn)
          have hm' : bfsMeasure r.1 r.2 < n := by
            have := ro.meas
            simp only [bfsMeasure] at hm ⊢
            simp only [List.length_cons] at hm
            omega
          have hstep : bfsLoop g il (n + 1) dist (cp :: rest)
              = bfsLoop g il n r.1 r.2 := by
            simp [bfsLoop, hr]
          rw [hstep]
          exact ih r.1 r.2 hinv' hm'

/-- 0 < INF. -/
theorem INF_pos : 0 < INF := by
  unfold INF
  positivity

/-- Facts about folding `dset · · 0` over a list of in-bounds cells. -/
theorem fold0_spec {Wn Hn : Nat} :
    ∀ (l : List Position) (d : List (List Nat)), Shape2 d Wn Hn →
      (∀ p ∈ l, 0 ≤ p.x ∧ p.x < (Wn : Int) ∧ 0 ≤ p.y ∧ p.y < (Hn : Int)) →
      Shape2 (l.foldl (fun d p => dset d p 0) d) Wn Hn
        ∧ (∀ p, dget (l.foldl (fun d p => dset d p 0) d) p ≤ dget d p)
        ∧ (∀ p ∈ l, dget (l.foldl (fun d p => dset d p 0) d) p = 0)
        ∧ (∀ p, p ∉ l → dget (l.foldl (fun d p => dset d p 0) d) p = dget d p)
  | [], d, hs, _ => ⟨hs, fun _ => le_rfl, by simp, fun _ _ => rfl⟩
  | p0 :: rest, d, hs, hb => by
      have hins : InShape d p0 := by
        obtain ⟨h1, h2, h3, h4⟩ := hb p0 (List.mem_cons_self _ _)
        obtain ⟨hl, hw⟩ := hs
        have hy : p0.y.toNat < d.length := by omega
        refine ⟨h1, h3, hy, ?_⟩
        rw [List.getElem?_eq_getElem hy, Option.getD_some, hw _ (List.getElem_mem hy)]
        omega
      have hfold : (p0 :: rest).foldl (fun d p => dset d p 0) d
          = rest.foldl (fun d p => dset d p 0) (dset d p0 0) := by
        simp [List.foldl_cons]
      have ih := fold0_spec rest (dset d p0 0) (shape2_dset hs)
        (fun p hp => hb p (List.mem_cons_of_mem _ hp))
      obtain ⟨ihs, ihmono, ihzero, ihfrozen⟩ := ih
      rw [hfold]
      refine ⟨ihs, ?_, ?_, ?_⟩
      · exact fun p => le_trans (ihmono p)
          (dget_dset_le hins (Nat.zero_le _) p)
      · intro p hp
        rcases List.mem_cons.mp hp with rfl | hp'
        · by_cases hpr : p ∈ rest
          · exact ihzero p hpr
          · rw [ihfrozen p hpr, dget_dset_self hins]
        · exact ihzero p hp'
      · intro p hp
        rw [ihfrozen p (fun hc => hp (List.mem_cons_of_mem _ hc)),
          dget_dset_ne (fun hc => hp (by rw [hc]; exact List.mem_cons_self _ _))]

/-- The postcondition holds of the array `gradient_field` returns,
unconditionally. -/
theorem gradient_field_post (g : HexArray) (goal : Position) (il : Bool)
    (stop_range : Int) :
    BfsPost g il goal ((max 0 stop_range).toNat)
      (g.gradient_field goal il stop_range) := by
  set R : Nat := (max 0 stop_range).toNat with hR
  set dist0 := List.replicate g.H (List.replicate g.W INF) with hdist0
  set seeds := g.seedList goal il R with hseeds
  have hseed_mem : ∀ p, p ∈ seeds ↔ IsSeed g il goal R p := fun p => mem_seedList_iff
  by_cases hempty : seeds = []
  · have hnoseed : ∀ p, ¬IsSeed g il goal R p := by
      intro p hp
      have := (hseed_mem p).mpr hp
      rw [hempty] at this
      exact List.not_mem_nil p this
    have hnopass : g.passable il goal ≠ true := by
      intro hp
      refine hnoseed goal ⟨hp, ?_⟩
      have h0 : goal.hex_distance goal = 0 :=
        (Position.hex_distance_eq_zero goal goal).mpr rfl
      omega
    have hgf : g.gradient_field goal il stop_range = dist0 := by
      unfold HexArray.gradient_field
      rw [← hR, ← hseeds, if_pos hempty, if_neg hnopass]
    rw [hgf]
    refine ⟨shape2_replicate _ _, fun p => le_of_eq (dget_replicate_INF _ _ p),
      ?_, ?_, ?_⟩
    · exact fun p hp => absurd hp (hnoseed p)
    · intro p hp
      rw [dget_replicate_INF] at hp
      exact absurd hp (lt_irrefl _)
    · intro k p hr
      exact absurd hr (not_reach_of_no_seed hnoseed k p)
  · have hb : ∀ p ∈ seeds, 0 ≤ p.x ∧ p.x < (g.W : Int) ∧ 0 ≤ p.y ∧ p.y < (g.H : Int) :=
      fun p hp => passable_bounds ((hseed_mem p).mp hp).1
    have hshape0 : Shape2 dist0 g.W g.H := shape2_replicate _ _
    obtain ⟨fshape, fmono, fzero, ffrozen⟩ := fold0_spec seeds dist0 hshape0 hb
    set dist1 := seeds.foldl (fun d p => dset d p 0) dist0 with hdist1
    have hinf1 : ∀ p, dget dist1 p ≤ INF := by
      intro p
      exact le_trans (fmono p) (le_of_eq (dget_replicate_INF _ _ p))
    have hinv : BfsInv g il goal R dist1 seeds := by
      refine ⟨fshape, hinf1, ?_, ?_, ?_, ?_, ?_⟩
      · exact fun p hp => ((hseed_mem p).mp hp).1
      · intro p hp
        rw [fzero p hp]
        exact INF_pos
      · intro p hp
        exact fzero p ((hseed_mem p).mpr hp)
      · intro p hp
        by_cases hmem : p ∈ seeds
        · exact ⟨0, by omega, Reach.seed ((hseed_mem p).mp hmem)⟩
        · rw [ffrozen p hmem, dget_replicate_INF] at hp
          exact absurd hp (lt_irrefl _)
      · intro p
        by_cases hmem : p ∈ seeds
        · exact Or.inl hmem
        · refine Or.inr ?_
          intro np hmem' hpn
          have := hinf1 np
          rw [ffrozen p hmem, dget_replicate_INF]
          omega
    have hgf : g.gradient_field goal il stop_range
        = bfsLoop g il (bfsMeasure dist1 seeds + 1) dist1 seeds := by
      unfold HexArray.gradient_field
      rw [← hR, ← hseeds, if_neg hempty]
    rw [hgf]
    exact bfsLoop_post g il goal R _ dist1 seeds hinv (by omega)

/-- **C2.**  For every goal, passability setting and `stopRange`, the
array `HexArray.gradient_field` returns assigns 0 to every in-bounds
passable cell within hex distance `R` of the goal (the seeds), the
length of the shortest passable neighbor walk from a seed to every other
cell it reaches, and leaves `INF` on every cell not connected to a seed
by such a walk. -/
theorem C2_gradient_field_distances (g : HexArray) (goal : Position)
    (il : Bool) (stop_range : Int) (p : Position) :
    (IsSeed g il goal (max 0 stop_range).toNat p →
        dget (g.gradient_field goal il stop_range) p = 0)
      ∧ (∀ k, Reach g il goal (max 0 stop_range).toNat k p →
          dget (g.gradient_field goal il stop_range) p ≤ k)
      ∧ (dget (g.gradient_field goal il stop_range) p ≠ INF →
          Reach g il goal (max 0 stop_range).toNat
            (dget (g.gradient_field goal il stop_range) p) p)
      ∧ ((∀ k, ¬Reach g il goal (max 0 stop_range).toNat k p) →
          dget (g.gradient_field goal il stop_range) p = INF) := by
  have post := gradient_field_post g goal il stop_range
  refine ⟨post.seeds0 p, fun k hr => post.complete k p hr, ?_, ?_⟩
  · intro hne
    have hlt : dget (g.gradient_field goal il stop_range) p < INF :=
      lt_of_le_of_ne (post.le_inf p) hne
    obtain ⟨k, hk, hr⟩ := post.sound p hlt
    have hck := post.complete k p hr
    have hkk : k = dget (g.gradient_field goal il stop_range) p := by omega
    exact hkk ▸ hr
  · intro hnone
    by_contra hne
    have hlt : dget (g.gradient_field goal il stop_range) p < INF :=
      lt_of_le_of_ne (post.le_inf p) hne
    obtain ⟨k, _, hr⟩ := post.sound p hlt
    exact hnone k hr

/-- Witness for C2: on a concrete 2×2 all-sea map with goal `(0,0)` and
stop range 0, the goal cell is a seed (so gets distance 0), and its
neighbor `(1,0)` is reached in one step (so gets distance at most 1). -/
theorem C2_gradient_field_distances_witness :
    dget ((HexArray.mk [[0, 0], [0, 0]]).gradient_field ⟨0, 0⟩ false 0) ⟨0, 0⟩ = 0
      ∧ dget ((HexArray.mk [[0, 0], [0, 0]]).gradient_field ⟨0, 0⟩ false 0) ⟨1, 0⟩ ≤ 1 := by
  have hseed : IsSeed (HexArray.mk [[0, 0], [0, 0]]) false ⟨0, 0⟩
      (max 0 (0 : Int)).toNat ⟨0, 0⟩ := ⟨by decide, by decide⟩
  have h0 : Reach (HexArray.mk [[0, 0], [0, 0]]) false ⟨0, 0⟩
      (max 0 (0 : Int)).toNat 0 ⟨0, 0⟩ := Reach.seed hseed
  have h1 : Reach (HexArray.mk [[0, 0], [0, 0]]) false ⟨0, 0⟩
      (max 0 (0 : Int)).toNat 1 ⟨1, 0⟩ := h0.step (by decide) (by decide)
  exact ⟨(C2_gradient_field_distances (HexArray.mk [[0, 0], [0, 0]]) ⟨0, 0⟩ false 0
      ⟨0, 0⟩).1 hseed,
    (C2_gradient_field_distances (HexArray.mk [[0, 0], [0, 0]]) ⟨0, 0⟩ false 0
      ⟨1, 0⟩).2.1 1 h1⟩

/-! ## A* path search (`hexmap.py` `find_path`, `session.py` `_find_path_hex`)

Both sources contain the same loop verbatim, differing only in the
passability predicate, so the loop is embedded once, parameterized by
`passOk`.  The Python `heapq` pops the least tuple `(f, g, (x, y))`
under lexicographic comparison; identical tuples never coexist in the
heap (a position is only re-pushed with a strictly smaller `g`), so the
heap behaves exactly like "remove the minimum of the list". -/

/-- Lexicographic comparison of heap entries `(f, g, pos)`, with `(x, y)`
tuple order on positions (as `Position.__lt__` defines). -/
def entryLe (a b : Nat × Nat × Position) : Bool :=
  a.1 < b.1 || (a.1 == b.1 && (a.2.1 < b.2.1 || (a.2.1 == b.2.1 &&
    (a.2.2.x < b.2.2.x || (a.2.2.x == b.2.2.x && a.2.2.y ≤ b.2.2.y)))))

/-- Minimum of the heap list under `entryLe`. -/
def heapMin : List (Nat × Nat × Position) → Option (Nat × Nat × Position)
  | [] => none
  | e :: rest =>
      match heapMin rest with
      | none => some e
      | some m => if entryLe e m then some e else some m

/-- `heapq.heappop`: remove the least entry. -/
def popMin (l : List (Nat × Nat × Position)) :
    Option ((Nat × Nat × Position) × List (Nat × Nat × Position)) :=
  match heapMin l with
  | none => none
  | some m => some (m, l.erase m)

/-- Lookup in an association list where assignment prepends (the newest
binding wins, like a Python dict written with `d[k] = v`). -/
def alookup {β : Type} (l : List (Position × β)) (p : Position) : Option β :=
  (l.find? (fun e => e.1 == p)).map (fun e => e.2)

/-- State of the A* loop. -/
structure AState where
  heap : List (Nat × Nat × Position)
  came : List (Position × Option Position)
  gscore : List (Position × Nat)
  closed : List Position
  expands : Nat

/-- Path reconstruction: follow `came_from` links back to the root (the
start, the unique key bound to `none`), accumulating in root-first
order.  `came.length` fuel suffices because parents have strictly
smaller g-scores. -/
def reconstruct (came : List (Position × Option Position)) :
    Nat → Position → List Position
  | 0, cur => [cur]
  | fuel + 1, cur =>
      match (alookup came cur).getD none with
      | none => [cur]
      | some prev => reconstruct came fuel prev ++ [cur]

/-- The neighbor-expansion inner loop of A*: for each passable neighbor
whose tentative g-score (`gv + 1`) improves on the stored one, record
score and parent and push `(tentative + h, tentative, npos)`. -/
def expandNbrs (passOk : Position → Bool) (goal : Position) (pos : Position)
    (gv : Nat) : List Position → AState → AState
  | [], st => st
  | np :: rest, st =>
      if passOk np then
        if gv + 1 < (alookup st.gscore np).getD (10 ^ 9) then
          expandNbrs passOk goal pos gv rest
            { heap := st.heap ++ [(gv + 1 + Position.hex_distance np goal, gv + 1, np)],
              came := (np, some pos) :: st.came,
              gscore := (np, gv + 1) :: st.gscore,
              closed := st.closed,
              expands := st.expands }
        else expandNbrs passOk goal pos gv rest st
      else expandNbrs passOk goal pos gv rest st

/-- The `while open_heap and expands < max_expand` loop of A*. -/
def astarLoop (passOk : Position → Bool) (goal : Position) (stopR : Nat)
    (maxExpand : Nat) : Nat → AState → Option (List Position)
  | 0, _ => none
  | fuel + 1, st =>
      if st.expands < maxExpand then
        match popMin st.heap with
        | none => none
        | some (e, rest) =>
            if e.2.2 ∈ st.closed then
              astarLoop passOk goal stopR maxExpand fuel { st with heap := rest }
            else if Position.hex_distance e.2.2 goal ≤ stopR then
              some (reconstruct st.came st.came.length e.2.2)
            else
              astarLoop passOk goal stopR maxExpand fuel
                (expandNbrs passOk goal e.2.2 e.2.1 e.2.2.offset_neighbors
                  { heap := rest, came := st.came, gscore := st.gscore,
                    closed := e.2.2 :: st.closed, expands := st.expands + 1 })
      else none

/-- A* from `start` towards `goal` (shared body of
`HexArray.find_path` and `_find_path_hex`): `None` when the start is
impassable, `[start]` when the start is already within `stop_range` of
the goal, and otherwise the search loop from a singleton heap. -/
def astar (passOk : Position → Bool) (start goal : Position)
    (stop_range : Int) (max_expand : Nat) : Option (List Position) :=
  if passOk start = false then none
  else if Position.hex_distance start goal ≤ (max 0 stop_range).toNat then
    some [start]
  else
    astarLoop passOk goal (max 0 stop_range).toNat max_expand
      (7 * max_expand + 2)
      { heap := [(0 + Position.hex_distance start goal, 0, start)],
        came := [(start, none)],
        gscore := [(start, 0)],
        closed := [],
        expands := 0 }

namespace HexArray

/-- `HexArray.find_path` (`hexmap.py`): A* over terrain-only
passability; returns `None` on an empty map, default budget 4000. -/
def find_path (g : HexArray) (start goal : Position) (il : Bool)
    (stop_range : Int) (max_expand : Nat) : Option (List Position) :=
  if g.W = 0 ∨ g.H = 0 then none
  else astar (g.passable il) start goal stop_range max_expand

end HexArray

/-! ### Session-side A* (`session.py`), with occupancy-aware passability -/

/-- The coordinates of a unit as `_is_occupied` sees them: the pydantic
computed fields `x`/`y`, which are `None` when the unit is off-map. -/
structure SessUnit where
  x : Option Int
  y : Option Int

/-- An enemy squadron as `_is_occupied` sees it. -/
structure SessSquadron where
  id : String
  x : Option Int
  y : Option Int
  state : String

/-- An entry of `player_obs.visible_squadrons`. -/
structure SessObsSquadron where
  id : String
  x : Option Int
  y : Option Int

/-- The slice of a `Session` that `_find_path_hex`/`_is_occupied` read. -/
structure Sess where
  map : List (List Int)
  enemy_carrier : SessUnit
  player_carrier : SessUnit
  enemy_squadrons : List SessSquadron
  player_obs : List SessObsSquadron

/-- `_is_occupied` (`session.py`): enemy carrier, player carrier, active
enemy squadrons except `ignore_id`, and observed player squadrons. -/
def is_occupied (sess : Sess) (x y : Int) (ignore_id : Option String) : Bool :=
  (sess.enemy_carrier.x == some x && sess.enemy_carrier.y == some y)
    || (sess.player_carrier.x == some x && sess.player_carrier.y == some y)
    || sess.enemy_squadrons.any (fun s =>
        !(some s.id == ignore_id) && s.x == some x && s.y == some y
          && !(s.state == "base") && !(s.state == "lost"))
    || sess.player_obs.any (fun ps => ps.x == some x && ps.y == some y)

/-- The `passable` closure of `_find_path_hex` (`session.py`): bounds,
terrain (unless `pass_islands`), the optional do-not-revisit cell, and
occupancy. -/
def sessPassable (sess : Sess) (pass_islands : Bool) (ignore_id : Option String)
    (avoid_prev : Option Position) (p : Position) : Bool :=
  decide (0 ≤ p.x ∧ p.x < ((sess.map.headD []).length : Int)
      ∧ 0 ≤ p.y ∧ p.y < (sess.map.length : Int))
    && (pass_islands || decide (((sess.map[p.y.toNat]?.getD [])[p.x.toNat]?).getD 1 = 0))
    && !(avoid_prev == some p)
    && !(is_occupied sess p.x p.y ignore_id)

/-- `_find_path_hex` (`session.py`): the same A* loop over the
occupancy-aware predicate. -/
def find_path_hex (sess : Sess) (start goal : Position) (pass_islands : Bool)
    (ignore_id : Option String) (avoid_prev : Option Position)
    (stop_range : Int) (max_expand : Nat) : Option (List Position) :=
  if (sess.map.headD []).length = 0 ∨ sess.map.length = 0 then none
  else astar (sessPassable sess pass_islands ignore_id avoid_prev)
    start goal stop_range max_expand

/-! ### A* bookkeeping invariants -/

theorem alookup_cons_self {β : Type} {l : List (Position × β)} {p : Position}
    {v : β} : alookup ((p, v) :: l) p = some v := by
  simp [alookup]

theorem alookup_cons_ne {β : Type} {l : List (Position × β)} {p q : Position}
    {v : β} (h : q ≠ p) : alookup ((p, v) :: l) q = alookup l q := by
  have hbe : (p == q) = false := by
    simp only [beq_eq_false_iff_ne, ne_eq]
    exact fun hc => h hc.symm
  simp [alookup, hbe]

theorem alookup_isSome_of_getD_lt {l : List (Position × Nat)} {p : Position}
    {d : Nat} (h : (alookup l p).getD d < d) : (alookup l p).isSome := by
  cases hl : alookup l p with
  | none => rw [hl] at h; simp at h
  | some v => simp

theorem heapMin_mem : ∀ {l : List (Nat × Nat × Position)} {m},
    heapMin l = some m → m ∈ l
  | [], m, h => by simp [heapMin] at h
  | e :: rest, m, h => by
      cases hr : heapMin rest with
      | none =>
          simp only [heapMin, hr] at h
          cases h
          exact List.mem_cons_self _ _
      | some m' =>
          simp only [heapMin, hr] at h
          by_cases he : entryLe e m'
          · rw [if_pos he] at h; cases h; exact List.mem_cons_self _ _
          · rw [if_neg he] at h; cases h
            exact List.mem_cons_of_mem _ (heapMin_mem hr)

theorem heapMin_none_iff {l : List (Nat × Nat × Position)} :
    heapMin l = none ↔ l = [] := by
  cases l with
  | nil => simp [heapMin]
  | cons e rest =>
      simp only [heapMin]
      cases hr : heapMin rest with
      | none => simp
      | some m' =>
          by_cases he : entryLe e m' <;> simp [he]

theorem popMin_none_iff {l : List (Nat × Nat × Position)} :
    popMin l = none ↔ l = [] := by
  unfold popMin
  cases hm : heapMin l with
  | none => simpa using heapMin_none_iff.mp hm
  | some m =>
      simp only []
      constructor
      · intro h; cases h
      · intro h
        subst h
        simp [heapMin] at hm

theorem popMin_spec {l : List (Nat × Nat × Position)}
    {e : Nat × Nat × Position} {rest : List (Nat × Nat × Position)}
    (h : popMin l = some (e, rest)) :
    e ∈ l ∧ rest = l.erase e := by
  unfold popMin at h
  cases hm : heapMin l with
  | none => rw [hm] at h; cases h
  | some m =>
      rw [hm] at h
      cases h
      exact ⟨heapMin_mem hm, rfl⟩

theorem mem_of_mem_erase_heap {l : List (Nat × Nat × Position)}
    {e a : Nat × Nat × Position} (h : a ∈ l.erase e) : a ∈ l :=
  List.mem_of_mem_erase h

/-- The g-score / parent-pointer bookkeeping that every A* state
maintains. -/
structure ABook (passOk : Position → Bool) (start : Position) (st : AState) : Prop where
  key_or : ∀ p, (alookup st.gscore p).isSome →
      p ∈ st.closed ∨ ∃ e ∈ st.heap, e.2.2 = p
  heap_pass : ∀ e ∈ st.heap, passOk e.2.2 = true
  heap_key : ∀ e ∈ st.heap, (alookup st.gscore e.2.2).isSome
  heap_g : ∀ e ∈ st.heap, e.2.1 < st.came.length ∧
      (alookup st.gscore e.2.2).getD (10 ^ 9) ≤ e.2.1
  gs_lt : ∀ p, (alookup st.gscore p).isSome →
      (alookup st.gscore p).getD (10 ^ 9) < st.came.length
  gs_start : alookup st.gscore start = some 0
  came_none : alookup st.came start = some none
  came_keys : ∀ p, (alookup st.came p).isSome ↔ (alookup st.gscore p).isSome
  came_root : ∀ p v, alookup st.came p = some v → v = none → p = start
  came_parent : ∀ p d, alookup st.came p = some (some d) →
      p ∈ Position.offset_neighbors d ∧ passOk p = true ∧ passOk d = true ∧
      (alookup st.gscore d).isSome ∧
      (alookup st.gscore d).getD (10 ^ 9) < (alookup st.gscore p).getD (10 ^ 9)

/-- What one neighbor-expansion pass of A* guarantees. -/
structure ExpandOut (passOk : Position → Bool) (start : Position) (gv : Nat)
    (nps : List Position) (st : AState) (r : AState) : Prop where
  book : ABook passOk start r
  closed_eq : r.closed = st.closed
  expands_eq : r.expands = st.expands
  came_ge : st.came.length ≤ r.came.length
  came_le : r.came.length ≤ st.came.length + nps.length
  heap_le : r.heap.length ≤ st.heap.length + nps.length
  heap_sub : ∀ e ∈ st.heap, e ∈ r.heap
  gs_mono : ∀ p, (alookup st.gscore p).isSome → (alookup r.gscore p).isSome
  gs_le : ∀ p, (alookup r.gscore p).getD (10 ^ 9) ≤ (alookup st.gscore p).getD (10 ^ 9)
  nps_done : ∀ np ∈ nps, passOk np = true →
      (alookup r.gscore np).getD (10 ^ 9) ≤ gv + 1

theorem expandNbrs_spec (passOk : Position → Bool) (start goal pos : Position)
    (gv : Nat) :
    ∀ (nps : List Position) (st : AState),
      ABook passOk start st →
      (∀ np ∈ nps, np ∈ Position.offset_neighbors pos) →
      passOk pos = true →
      (alookup st.gscore pos).getD (10 ^ 9) ≤ gv →
      gv < st.came.length →
      st.came.length + nps.length ≤ 10 ^ 9 →
      ExpandOut passOk start gv nps st (expandNbrs passOk goal pos gv nps st)
  | [], st, hbook, _, _, _, _, _ => by
      refine ⟨hbook, rfl, rfl, le_rfl, by simp [expandNbrs], by simp [expandNbrs],
        fun e he => he, fun p hp => hp, fun p => le_rfl, by simp⟩
  | np :: rest, st, hbook, hsub, hpos, hgs, hgv, hbound => by
      by_cases hpass : passOk np = true
      · by_cases hguard : gv + 1 < (alookup st.gscore np).getD (10 ^ 9)
        · -- improve: record score and parent, push
          set st1 : AState :=
            { heap := st.heap ++ [(gv + 1 + Position.hex_distance np goal, gv + 1, np)],
              came := (np, some pos) :: st.came,
              gscore := (np, gv + 1) :: st.gscore,
              closed := st.closed,
              expands := st.expands } with hst1
          have hstep : expandNbrs passOk goal pos gv (np :: rest) st
              = expandNbrs passOk goal pos gv rest st1 := by
            simp only [expandNbrs]
            rw [if_pos hpass, if_pos hguard]
          have hnp_ne_start : np ≠ start := by
            intro hc
            rw [hc, hbook.gs_start] at hguard
            simp at hguard
          have hnp_ne_pos : np ≠ pos :=
            Position.ne_of_mem_offset_neighbors (hsub np (List.mem_cons_self _ _))
          have hgs1_np : alookup st1.gscore np = some (gv + 1) := alookup_cons_self
          have hgs1_ne : ∀ p, p ≠ np → alookup st1.gscore p = alookup st.gscore p :=
            fun p hp => alookup_cons_ne hp
          have hcame1_np : alookup st1.came np = some (some pos) := alookup_cons_self
          have hcame1_ne : ∀ p, p ≠ np → alookup st1.came p = alookup st.came p :=
            fun p hp => alookup_cons_ne hp
          have hbound' : st.came.length < 10 ^ 9 := by
            simp only [List.length_cons] at hbound
            omega
          have hlt9 : (alookup st.gscore pos).getD (10 ^ 9) < 10 ^ 9 := by omega
          have hpos_some : (alookup st.gscore pos).isSome :=
            alookup_isSome_of_getD_lt hlt9
          have hbook1 : ABook passOk start st1 := by
            refine ⟨?_, ?_, ?_, ?_, ?_, ?_, ?_, ?_, ?_, ?_⟩
            · intro p hp
              by_cases hpn : p = np
              · subst hpn
                refine Or.inr ⟨(gv + 1 + Position.hex_distance p goal, gv + 1, p), ?_, rfl⟩
                simp [hst1]
              · rw [hgs1_ne p hpn] at hp
                rcases hbook.key_or p hp with hc | ⟨e, he, hee⟩
                · exact Or.inl hc
                · exact Or.inr ⟨e, by simp [hst1]; exact Or.inl he, hee⟩
            · intro e he
              simp only [hst1, List.mem_append, List.mem_singleton] at he
              rcases he with he | rfl
              · exact hbook.heap_pass e he
              · exact hpass
            · intro e he
              simp only [hst1, List.mem_append, List.mem_singleton] at he
              rcases he with he | rfl
              · by_cases hpn : e.2.2 = np
                · rw [hpn, hgs1_np]; simp
                · rw [hgs1_ne _ hpn]; exact hbook.heap_key e he
              · show (alookup st1.gscore np).isSome
                rw [hgs1_np]; simp
            · intro e he
              simp only [hst1, List.mem_append, List.mem_singleton] at he
              rcases he with he | rfl
              · obtain ⟨h1, h2⟩ := hbook.heap_g e he
                refine ⟨by simp [hst1]; omega, ?_⟩
                by_cases hpn : e.2.2 = np
                · rw [hpn, hgs1_np]
                  simp only [Option.getD_some]
                  rw [hpn] at h2
                  omega
                · rw [hgs1_ne _ hpn]; exact h2
              · refine ⟨?_, ?_⟩
                · show gv + 1 < st1.came.length
                  simp only [hst1, List.length_cons]
                  omega
                · show (alookup st1.gscore np).getD (10 ^ 9) ≤ gv + 1
                  rw [hgs1_np]
                  simp
            · intro p hp
              by_cases hpn : p = np
              · subst hpn
                rw [hgs1_np]
                simp only [Option.getD_some, hst1, List.length_cons]
                omega
              · rw [hgs1_ne p hpn] at hp ⊢
                have := hbook.gs_lt p hp
                simp only [hst1, List.length_cons]
                omega
            · rw [hgs1_ne start (fun hc => hnp_ne_start hc.symm)]
              exact hbook.gs_start
            · rw [hcame1_ne start (fun hc => hnp_ne_start hc.symm)]
              exact hbook.came_none
            · intro p
              by_cases hpn : p = np
              · subst hpn
                rw [hcame1_np, hgs1_np]
                simp
              · rw [hcame1_ne p hpn, hgs1_ne p hpn]
                exact hbook.came_keys p
            · intro p v hp hv
              by_cases hpn : p = np
              · subst hpn
                rw [hcame1_np] at hp
                cases hp
                cases hv
              · rw [hcame1_ne p hpn] at hp
                exact hbook.came_root p v hp hv
            · intro p d hp
              by_cases hpn : p = np
              · subst hpn
                rw [hcame1_np] at hp
                cases hp
                refine ⟨hsub p (List.mem_cons_self _ _), hpass, hpos, ?_, ?_⟩
                · rw [hgs1_ne _ (fun hc => hnp_ne_pos hc.symm)]
                  exact hpos_some
                · rw [hgs1_ne _ (fun hc => hnp_ne_pos hc.symm), hgs1_np]
                  simp only [Option.getD_some]
                  omega
              · rw [hcame1_ne p hpn] at hp
                obtain ⟨h1, h2, h3, h4, h5⟩ := hbook.came_parent p d hp
                by_cases hdn : d = np
                · subst hdn
                  refine ⟨h1, h2, h3, by rw [hgs1_np]; simp, ?_⟩
                  rw [hgs1_np, hgs1_ne p hpn]
                  simp only [Option.getD_some]
                  omega
                · exact ⟨h1, h2, h3, by rw [hgs1_ne _ hdn]; exact h4,
                    by rw [hgs1_ne _ hdn, hgs1_ne p hpn]; exact h5⟩
          have hgs1_pos : (alookup st1.gscore pos).getD (10 ^ 9) ≤ gv := by
            rw [hgs1_ne _ (fun hc => hnp_ne_pos hc.symm)]
            exact hgs
          have hgv1 : gv < st1.came.length := by
            simp only [hst1, List.length_cons]
            omega
          have ih := expandNbrs_spec passOk start goal pos gv rest st1 hbook1
            (fun n hn => hsub n (List.mem_cons_of_mem _ hn)) hpos hgs1_pos hgv1
            (by simp only [hst1, List.length_cons] at hbound ⊢; omega)
          rw [hstep]
          refine ⟨ih.book, by rw [ih.closed_eq], by rw [ih.expands_eq], ?_, ?_, ?_,
            ?_, ?_, ?_, ?_⟩
          · exact le_trans (by simp [hst1]) ih.came_ge
          · have := ih.came_le
            simp only [hst1, List.length_cons, List.length_cons] at this ⊢
            omega
          · have := ih.heap_le
            simp only [hst1, List.length_append, List.length_singleton,
              List.length_cons, List.length_nil] at this ⊢
            omega
          · intro e he
            exact ih.heap_sub e (by simp [hst1]; exact Or.inl he)
          · intro p hp
            refine ih.gs_mono p ?_
            by_cases hpn : p = np
            · subst hpn; rw [hgs1_np]; simp
            · rw [hgs1_ne p hpn]; exact hp
          · intro p
            refine le_trans (ih.gs_le p) ?_
            by_cases hpn : p = np
            · subst hpn
              rw [hgs1_np]
              simp only [Option.getD_some]
              omega
            · rw [hgs1_ne p hpn]
          · intro n hn hpn
            rcases List.mem_cons.mp hn with rfl | hn'
            · refine le_trans (ih.gs_le n) ?_
              rw [hgs1_np]
              simp
            · exact ih.nps_done n hn' hpn
        · have hstep : expandNbrs passOk goal pos gv (np :: rest) st
              = expandNbrs passOk goal pos gv rest st := by
            simp only [expandNbrs]
            rw [if_pos hpass, if_neg hguard]
          have ih := expandNbrs_spec passOk start goal pos gv rest st hbook
            (fun n hn => hsub n (List.mem_cons_of_mem _ hn)) hpos hgs hgv
            (by simp only [List.length_cons] at hbound; omega)
          rw [hstep]
          refine ⟨ih.book, ih.closed_eq, ih.expands_eq, ih.came_ge, ?_, ?_,
            ih.heap_sub, ih.gs_mono, ih.gs_le, ?_⟩
          · exact le_trans ih.came_le (by simp)
          · exact le_trans ih.heap_le (by simp)
          · intro n hn hpn
            rcases List.mem_cons.mp hn with rfl | hn'
            · exact le_trans (ih.gs_le n) (by omega)
            · exact ih.nps_done n hn' hpn
      · have hstep : expandNbrs passOk goal pos gv (np :: rest) st
            = expandNbrs passOk goal pos gv rest st := by
          simp [expandNbrs, hpass]
        have ih := expandNbrs_spec passOk start goal pos gv rest st hbook
          (fun n hn => hsub n (List.mem_cons_of_mem _ hn)) hpos hgs hgv
          (by simp only [List.length_cons] at hbound; omega)
        rw [hstep]
        refine ⟨ih.book, ih.closed_eq, ih.expands_eq, ih.came_ge, ?_, ?_,
          ih.heap_sub, ih.gs_mono, ih.gs_le, ?_⟩
        · exact le_trans ih.came_le (by simp)
        · exact le_trans ih.heap_le (by simp)
        · intro n hn hpn
          rcases List.mem_cons.mp hn with rfl | hn'
          · exact absurd hpn hpass
          · exact ih.nps_done n hn' hpn

/-- Full A* loop invariant. -/
structure AInv (passOk : Position → Bool) (start goal : Position)
    (stopR maxExpand : Nat) (st : AState) : Prop where
  book : ABook passOk start st
  start_in : start ∈ st.closed ∨ ∃ e ∈ st.heap, e.2.2 = start
  closed_exp : ∀ p ∈ st.closed, ∀ np ∈ Position.offset_neighbors p,
      passOk np = true → (alookup st.gscore np).isSome
  closed_pass : ∀ p ∈ st.closed, passOk p = true
  closed_far : ∀ p ∈ st.closed, ¬(Position.hex_distance p goal ≤ stopR)
  closed_nodup : st.closed.Nodup
  closed_card : st.closed.length = st.expands
  came_len : st.came.length ≤ 6 * st.expands + 1
  expands_le : st.expands ≤ maxExpand

/-- Termination measure of the A* loop. -/
def ameasure (maxExpand : Nat) (st : AState) : Nat :=
  st.heap.length + 7 * (maxExpand - st.expands)

/-- Walks from the start over passable cells (what A* can explore). -/
inductive AReach (passOk : Position → Bool) (start : Position) : Nat → Position → Prop
  | refl : passOk start = true → AReach passOk start 0 start
  | step {k d p} : AReach passOk start k d → p ∈ Position.offset_neighbors d →
      passOk p = true → AReach passOk start (k + 1) p

theorem AReach.pass {passOk : Position → Bool} {start : Position} {k : Nat}
    {t : Position} (h : AReach passOk start k t) : passOk t = true := by
  cases h with
  | refl h => exact h
  | step _ _ h => exact h

theorem AReach.start_pass {passOk : Position → Bool} {start : Position} {k : Nat}
    {t : Position} (h : AReach passOk start k t) : passOk start = true := by
  induction h with
  | refl h => exact h
  | step _ _ _ ih => exact ih

/-- Path reconstruction from a valid parent map yields a valid path:
root-first, starting at `start`, consecutive cells are neighbors, all
passable. -/
theorem reconstruct_valid {passOk : Position → Bool} {start : Position}
    {st : AState} (hbook : ABook passOk start st) (hstart : passOk start = true) :
    ∀ (fuel : Nat) (p : Position), (alookup st.gscore p).isSome →
      (alookup st.gscore p).getD (10 ^ 9) < fuel →
      (reconstruct st.came fuel p).head? = some start
        ∧ (reconstruct st.came fuel p).getLast? = some p
        ∧ List.Chain' (fun a b => b ∈ Position.offset_neighbors a)
            (reconstruct st.came fuel p)
        ∧ (∀ c ∈ reconstruct st.came fuel p, passOk c = true)
        ∧ (reconstruct st.came fuel p).length ≤ fuel + 1 := by
  intro fuel
  induction fuel with
  | zero =>
      intro p hsome hlt
      exact absurd hlt (by omega)
  | succ n ih =>
      intro p hsome hlt
      have hkey : (alookup st.came p).isSome := (hbook.came_keys p).mpr hsome
      obtain ⟨v, hv⟩ := Option.isSome_iff_exists.mp hkey
      cases v with
      | none =>
          have hps : p = start := hbook.came_root p none hv rfl
          have hrec : reconstruct st.came (n + 1) p = [p] := by
            simp [reconstruct, hv]
          rw [hrec]
          subst hps
          refine ⟨rfl, rfl, List.chain'_singleton _, by simpa using hstart, ?_⟩
          rw [List.length_singleton]
          omega
      | some d =>
          have hrec : reconstruct st.came (n + 1) p
              = reconstruct st.came n d ++ [p] := by
            simp [reconstruct, hv]
          obtain ⟨hmem, hp_pass, hd_pass, hd_some, hd_lt⟩ := hbook.came_parent p d hv
          have hlt' : (alookup st.gscore d).getD (10 ^ 9) < n := by omega
          obtain ⟨ih_head, ih_last, ih_chain, ih_pass, ih_len⟩ := ih d hd_some hlt'
          have hne : reconstruct st.came n d ≠ [] := by
            intro hc
            rw [hc] at ih_head
            cases ih_head
          rw [hrec]
          refine ⟨?_, ?_, ?_, ?_, ?_⟩
          · rw [List.head?_append_of_ne_nil _ hne]
            exact ih_head
          · exact List.getLast?_concat _
          · rw [List.chain'_append]
            refine ⟨ih_chain, List.chain'_singleton _, ?_⟩
            intro x hx y hy
            rw [ih_last] at hx
            cases hx
            cases hy
            exact hmem
          · intro c hc
            rcases List.mem_append.mp hc with hc | hc
            · exact ih_pass c hc
            · rw [List.mem_singleton.mp hc]
              exact hp_pass
          · rw [List.length_append, List.length_singleton]
            omega

/-- Preservation across a "pop a closed entry" iteration. -/
theorem astep_skip_preserve {passOk : Position → Bool} {start goal : Position}
    {stopR maxExpand : Nat} {st : AState} {e : Nat × Nat × Position}
    {rest : List (Nat × Nat × Position)}
    (hinv : AInv passOk start goal stopR maxExpand st)
    (hp : popMin st.heap = some (e, rest)) (hcl : e.2.2 ∈ st.closed) :
    AInv passOk start goal stopR maxExpand { st with heap := rest }
      ∧ ameasure maxExpand { st with heap := rest } < ameasure maxExpand st := by
  obtain ⟨hmem, hrest⟩ := popMin_spec hp
  subst hrest
  have hsub : ∀ a, a ∈ st.heap.erase e → a ∈ st.heap :=
    fun a ha => List.mem_of_mem_erase ha
  have hkey_or : ∀ p, (alookup st.gscore p).isSome →
      p ∈ st.closed ∨ ∃ e' ∈ st.heap.erase e, e'.2.2 = p := by
    intro p hps
    rcases hinv.book.key_or p hps with hc | ⟨e', he', hee⟩
    · exact Or.inl hc
    · by_cases hee' : e' = e
      · subst hee'
        exact Or.inl (hee ▸ hcl)
      · exact Or.inr ⟨e', (List.mem_erase_of_ne hee').mpr he', hee⟩
  refine ⟨⟨⟨hkey_or, fun e' he' => hinv.book.heap_pass e' (hsub e' he'),
      fun e' he' => hinv.book.heap_key e' (hsub e' he'),
      fun e' he' => hinv.book.heap_g e' (hsub e' he'),
      hinv.book.gs_lt, hinv.book.gs_start, hinv.book.came_none,
      hinv.book.came_keys, hinv.book.came_root, hinv.book.came_parent⟩,
      ?_, hinv.closed_exp, hinv.closed_pass, hinv.closed_far,
      hinv.closed_nodup, hinv.closed_card, hinv.came_len, hinv.expands_le⟩,
      ?_⟩
  · rcases hinv.start_in with hc | ⟨e', he', hee⟩
    · exact Or.inl hc
    · by_cases hee' : e' = e
      · subst hee'
        exact Or.inl (hee ▸ hcl)
      · exact Or.inr ⟨e', (List.mem_erase_of_ne hee').mpr he', hee⟩
  · have hlen := List.length_erase_of_mem hmem
    have hpos : 0 < st.heap.length := List.length_pos_of_mem hmem
    show (st.heap.erase e).length + 7 * (maxExpand - st.expands)
      < st.heap.length + 7 * (maxExpand - st.expands)
    omega

/-- Preservation and measure decrease across an expansion iteration. -/
theorem astep_expand_preserve {passOk : Position → Bool} {start goal : Position}
    {stopR maxExpand : Nat} {st : AState} {e : Nat × Nat × Position}
    {rest : List (Nat × Nat × Position)}
    (hinv : AInv passOk start goal stopR maxExpand st)
    (hp : popMin st.heap = some (e, rest)) (hcl : e.2.2 ∉ st.closed)
    (hfar : ¬(Position.hex_distance e.2.2 goal ≤ stopR))
    (hlt : st.expands < maxExpand) (hme : 6 * maxExpand + 7 ≤ 10 ^ 9) :
    AInv passOk start goal stopR maxExpand
        (expandNbrs passOk goal e.2.2 e.2.1 e.2.2.offset_neighbors
          { heap := rest, came := st.came, gscore := st.gscore,
            closed := e.2.2 :: st.closed, expands := st.expands + 1 })
      ∧ ameasure maxExpand
          (expandNbrs passOk goal e.2.2 e.2.1 e.2.2.offset_neighbors
            { heap := rest, came := st.came, gscore := st.gscore,
              closed := e.2.2 :: st.closed, expands := st.expands + 1 })
        < ameasure maxExpand st := by
  obtain ⟨hmem, hrest⟩ := popMin_spec hp
  subst hrest
  set stm : AState :=
    ⟨st.heap.erase e, st.came, st.gscore, e.2.2 :: st.closed, st.expands + 1⟩
    with hstm
  have hsub : ∀ a, a ∈ st.heap.erase e → a ∈ st.heap :=
    fun a ha => List.mem_of_mem_erase ha
  have hbookm : ABook passOk start stm := by
    refine ⟨?_, fun e' he' => hinv.book.heap_pass e' (hsub e' he'),
      fun e' he' => hinv.book.heap_key e' (hsub e' he'),
      fun e' he' => hinv.book.heap_g e' (hsub e' he'),
      hinv.book.gs_lt, hinv.book.gs_start, hinv.book.came_none,
      hinv.book.came_keys, hinv.book.came_root, hinv.book.came_parent⟩
    intro p hps
    rcases hinv.book.key_or p hps with hc | ⟨e', he', hee⟩
    · exact Or.inl (List.mem_cons_of_mem _ hc)
    · by_cases hee' : e' = e
      · subst hee'
        exact Or.inl (hee ▸ List.mem_cons_self _ _)
      · exact Or.inr ⟨e', (List.mem_erase_of_ne hee').mpr he', hee⟩
  have hpos_pass : passOk e.2.2 = true := hinv.book.heap_pass e hmem
  have hg := hinv.book.heap_g e hmem
  have hnps_len : (Position.offset_neighbors e.2.2).length = 6 :=
    Position.offset_neighbors_length e.2.2
  have hbound : stm.came.length + (Position.offset_neighbors e.2.2).length ≤ 10 ^ 9 := by
    have := hinv.came_len
    have := hinv.expands_le
    simp only [hstm, hnps_len]
    omega
  have eo := expandNbrs_spec passOk start goal e.2.2 e.2.1
    e.2.2.offset_neighbors stm hbookm (fun n hn => hn) hpos_pass hg.2 hg.1 hbound
  have hcame_lt9 : stm.came.length < 10 ^ 9 := by
    simp only [hstm]
    have := hinv.came_len
    have := hinv.expands_le
    omega
  refine ⟨⟨eo.book, ?_, ?_, ?_, ?_, ?_, ?_, ?_, ?_⟩, ?_⟩
  · rcases hinv.start_in with hc | ⟨e', he', hee⟩
    · rw [eo.closed_eq]
      exact Or.inl (by simp only [hstm]; exact List.mem_cons_of_mem _ hc)
    · by_cases hee' : e' = e
      · subst hee'
        rw [eo.closed_eq]
        exact Or.inl (by simp only [hstm]; exact hee ▸ List.mem_cons_self _ _)
      · exact Or.inr ⟨e', eo.heap_sub e'
          (by simp only [hstm]; exact (List.mem_erase_of_ne hee').mpr he'), hee⟩
  · intro p hpc np hnp hnpass
    rw [eo.closed_eq] at hpc
    simp only [hstm, List.mem_cons] at hpc
    rcases hpc with rfl | hpc
    · have hd := eo.nps_done np hnp hnpass
      refine alookup_isSome_of_getD_lt (lt_of_le_of_lt hd ?_)
      have h1 := hg.1
      have h2 := hinv.came_len
      have h3 := hinv.expands_le
      omega
    · exact eo.gs_mono np (hinv.closed_exp p hpc np hnp hnpass)
  · intro p hpc
    rw [eo.closed_eq] at hpc
    simp only [hstm, List.mem_cons] at hpc
    rcases hpc with rfl | hpc
    · exact hpos_pass
    · exact hinv.closed_pass p hpc
  · intro p hpc
    rw [eo.closed_eq] at hpc
    simp only [hstm, List.mem_cons] at hpc
    rcases hpc with rfl | hpc
    · exact hfar
    · exact hinv.closed_far p hpc
  · rw [eo.closed_eq]
    simp only [hstm]
    exact List.nodup_cons.mpr ⟨hcl, hinv.closed_nodup⟩
  · rw [eo.closed_eq, eo.expands_eq]
    simp only [hstm, List.length_cons]
    rw [hinv.closed_card]
  · have := eo.came_le
    rw [eo.expands_eq]
    simp only [hstm, hnps_len] at this ⊢
    have := hinv.came_len
    omega
  · rw [eo.expands_eq]
    simp only [hstm]
    omega
  · have h1 := eo.heap_le
    have h2 := eo.expands_eq
    have h3 := List.length_erase_of_mem hmem
    have h4 : 0 < st.heap.length := List.length_pos_of_mem hmem
    simp only [hstm, hnps_len] at h1 h2 ⊢
    simp only [ameasure, h2]
    omega

/-- Reduction of the A* loop when the budget is exhausted. -/
theorem astarLoop_stop {passOk : Position → Bool} {goal : Position}
    {stopR maxExpand fuel : Nat} {st : AState}
    (hexp : ¬st.expands < maxExpand) :
    astarLoop passOk goal stopR maxExpand (fuel + 1) st = none := by
  simp only [astarLoop]
  rw [if_neg hexp]

/-- Reduction of the A* loop when the heap is empty. -/
theorem astarLoop_nopop {passOk : Position → Bool} {goal : Position}
    {stopR maxExpand fuel : Nat} {st : AState}
    (hexp : st.expands < maxExpand) (hp : popMin st.heap = none) :
    astarLoop passOk goal stopR maxExpand (fuel + 1) st = none := by
  simp only [astarLoop]
  rw [if_pos hexp, hp]

/-- Reduction of the A* loop at a successful pop. -/
theorem astarLoop_pop {passOk : Position → Bool} {goal : Position}
    {stopR maxExpand fuel : Nat} {st : AState} {e : Nat × Nat × Position}
    {rest : List (Nat × Nat × Position)}
    (hexp : st.expands < maxExpand) (hp : popMin st.heap = some (e, rest)) :
    astarLoop passOk goal stopR maxExpand (fuel + 1) st
      = if e.2.2 ∈ st.closed then
          astarLoop passOk goal stopR maxExpand fuel { st with heap := rest }
        else if Position.hex_distance e.2.2 goal ≤ stopR then
          some (reconstruct st.came st.came.length e.2.2)
        else
          astarLoop passOk goal stopR maxExpand fuel
            (expandNbrs passOk goal e.2.2 e.2.1 e.2.2.offset_neighbors
              { heap := rest, came := st.came, gscore := st.gscore,
                closed := e.2.2 :: st.closed, expands := st.expands + 1 }) := by
  simp only [astarLoop]
  rw [if_pos hexp, hp]

/-- Soundness of the A* loop: any returned path starts at `start`, walks
offset-neighbor steps over passable cells, and ends within `stopR` of
the goal. -/
theorem astarLoop_sound {passOk : Position → Bool} {start goal : Position}
    {stopR maxExpand : Nat} (hstart : passOk start = true)
    (hme : 6 * maxExpand + 7 ≤ 10 ^ 9) :
    ∀ (fuel : Nat) (st : AState), AInv passOk start goal stopR maxExpand st →
      ∀ path, astarLoop passOk goal stopR maxExpand fuel st = some path →
        path.head? = some start
          ∧ List.Chain' (fun a b => b ∈ Position.offset_neighbors a) path
          ∧ (∀ c ∈ path, passOk c = true)
          ∧ (∃ t, path.getLast? = some t ∧ Position.hex_distance t goal ≤ stopR)
          ∧ path.length ≤ 6 * maxExpand + 2 := by
  intro fuel
  induction fuel with
  | zero =>
      intro st _ path hres
      simp only [astarLoop] at hres
      exact Option.noConfusion hres
  | succ n ih =>
      intro st hinv path hres
      by_cases hexp : st.expands < maxExpand
      · cases hpop : popMin st.heap with
        | none =>
            rw [astarLoop_nopop hexp hpop] at hres
            exact Option.noConfusion hres
        | some pr =>
            obtain ⟨e, rest⟩ := pr
            rw [astarLoop_pop hexp hpop] at hres
            by_cases hcl : e.2.2 ∈ st.closed
            · rw [if_pos hcl] at hres
              exact ih _ (astep_skip_preserve hinv hpop hcl).1 path hres
            · rw [if_neg hcl] at hres
              by_cases hgl : Position.hex_distance e.2.2 goal ≤ stopR
              · rw [if_pos hgl] at hres
                have hpath : path = reconstruct st.came st.came.length e.2.2 :=
                  (Option.some.inj hres).symm
                subst hpath
                obtain ⟨hmem, -⟩ := popMin_spec hpop
                have hkey := hinv.book.heap_key e hmem
                have hglt := hinv.book.gs_lt e.2.2 hkey
                obtain ⟨h1, h2, h3, h4, h5⟩ :=
                  reconstruct_valid hinv.book hstart st.came.length e.2.2 hkey hglt
                refine ⟨h1, h3, h4, ⟨e.2.2, h2, hgl⟩, ?_⟩
                have h6 := hinv.came_len
                have h7 := hinv.expands_le
                omega
              · rw [if_neg hgl] at hres
                exact ih _ (astep_expand_preserve hinv hpop hcl hgl hexp hme).1 path hres
      · rw [astarLoop_stop hexp] at hres
        exact Option.noConfusion hres

/-- With an empty heap, everything reachable by passable walks from the
start is already closed. -/
theorem reach_closed_of_heap_nil {passOk : Position → Bool} {start goal : Position}
    {stopR maxExpand : Nat} {st : AState}
    (hinv : AInv passOk start goal stopR maxExpand st) (hheap : st.heap = []) :
    ∀ {k : Nat} {p : Position}, AReach passOk start k p → p ∈ st.closed := by
  intro k p h
  induction h with
  | refl _ =>
      rcases hinv.start_in with hc | ⟨e, he, _⟩
      · exact hc
      · rw [hheap] at he
        cases he
  | step _ hmem hpass ih =>
      have hsome := hinv.closed_exp _ ih _ hmem hpass
      rcases hinv.book.key_or _ hsome with hc | ⟨e, he, _⟩
      · exact hc
      · rw [hheap] at he
        cases he

/-- A duplicate-free list covered by a duplicate-free list that is no
longer covers it back. -/
theorem mem_of_subset_of_length_le {univ closed : List Position}
    (hu : univ.Nodup) (hc : closed.Nodup)
    (hsub : ∀ p ∈ closed, p ∈ univ) (hlen : univ.length ≤ closed.length) :
    ∀ p ∈ univ, p ∈ closed := by
  have h1 : closed.toFinset ⊆ univ.toFinset := by
    intro p hp
    exact List.mem_toFinset.mpr (hsub p (List.mem_toFinset.mp hp))
  have h2 : univ.toFinset.card ≤ closed.toFinset.card := by
    rw [List.toFinset_card_of_nodup hc, List.toFinset_card_of_nodup hu]
    exact hlen
  have h3 := Finset.eq_of_subset_of_card_le h1 h2
  intro p hp
  have hp' : p ∈ univ.toFinset := List.mem_toFinset.mpr hp
  rw [← h3] at hp'
  exact List.mem_toFinset.mp hp'

/-- Completeness of the A* loop: when the budget covers every passable
cell and a cell within `stopR` of the goal is reachable from the start,
the loop finds some path. -/
theorem astarLoop_complete {passOk : Position → Bool} {start goal : Position}
    {stopR maxExpand : Nat} {univ : List Position}
    (hme : 6 * maxExpand + 7 ≤ 10 ^ 9)
    (hu_nodup : univ.Nodup) (hu : ∀ p, passOk p = true → p ∈ univ)
    (hcap : univ.length ≤ maxExpand)
    {k : Nat} {t : Position} (hreach : AReach passOk start k t)
    (htgoal : Position.hex_distance t goal ≤ stopR) :
    ∀ (fuel : Nat) (st : AState), AInv passOk start goal stopR maxExpand st →
      ameasure maxExpand st < fuel →
      ∃ path, astarLoop passOk goal stopR maxExpand fuel st = some path := by
  intro fuel
  induction fuel with
  | zero =>
      intro st _ hm
      exact absurd hm (by omega)
  | succ n ih =>
      intro st hinv hm
      by_cases hexp : st.expands < maxExpand
      · cases hpop : popMin st.heap with
        | none =>
            exfalso
            have hheap := popMin_none_iff.mp hpop
            have htc : t ∈ st.closed := reach_closed_of_heap_nil hinv hheap hreach
            exact hinv.closed_far t htc htgoal
        | some pr =>
            obtain ⟨e, rest⟩ := pr
            rw [astarLoop_pop hexp hpop]
            by_cases hcl : e.2.2 ∈ st.closed
            · rw [if_pos hcl]
              obtain ⟨hinv', hdec⟩ := astep_skip_preserve hinv hpop hcl
              exact ih _ hinv' (by omega)
            · rw [if_neg hcl]
              by_cases hgl : Position.hex_distance e.2.2 goal ≤ stopR
              · rw [if_pos hgl]
                exact ⟨_, rfl⟩
              · rw [if_neg hgl]
                obtain ⟨hinv', hdec⟩ := astep_expand_preserve hinv hpop hcl hgl hexp hme
                exact ih _ hinv' (by omega)
      · exfalso
        have hlen : st.closed.length = st.expands := hinv.closed_card
        have hsubu : ∀ p ∈ st.closed, p ∈ univ :=
          fun p hp => hu p (hinv.closed_pass p hp)
        have hcov := mem_of_subset_of_length_le hu_nodup hinv.closed_nodup hsubu
          (by omega)
        exact hinv.closed_far t (hcov t (hu t hreach.pass)) htgoal

/-- The invariant holds of the initial A* state. -/
theorem AInv_init {passOk : Position → Bool} {start goal : Position}
    {stopR maxExpand : Nat} (hstart : passOk start = true) :
    AInv passOk start goal stopR maxExpand
      { heap := [(0 + Position.hex_distance start goal, 0, start)],
        came := [(start, none)], gscore := [(start, 0)], closed := [],
        expands := 0 } := by
  refine ⟨⟨?_, ?_, ?_, ?_, ?_, ?_, ?_, ?_, ?_, ?_⟩, ?_, ?_, ?_, ?_, ?_, ?_, ?_, ?_⟩
  · intro p hp
    by_cases hps : p = start
    · subst hps
      exact Or.inr ⟨(0 + Position.hex_distance p goal, 0, p),
        List.mem_singleton_self _, rfl⟩
    · have hp' : (alookup [(start, 0)] p).isSome = true := hp
      rw [alookup_cons_ne hps] at hp'
      exact Bool.noConfusion hp'
  · intro e he
    rw [List.mem_singleton] at he
    subst he
    exact hstart
  · intro e he
    rw [List.mem_singleton] at he
    subst he
    show (alookup [(start, 0)] start).isSome = true
    rw [alookup_cons_self]
    rfl
  · intro e he
    rw [List.mem_singleton] at he
    subst he
    refine ⟨?_, ?_⟩
    · show (0 : Nat) < 1
      omega
    · show (alookup [(start, 0)] start).getD (10 ^ 9) ≤ 0
      rw [alookup_cons_self]
      exact le_rfl
  · intro p hp
    by_cases hps : p = start
    · subst hps
      show (alookup [(p, 0)] p).getD (10 ^ 9) < 1
      rw [alookup_cons_self]
      show (0 : Nat) < 1
      omega
    · have hp' : (alookup [(start, 0)] p).isSome = true := hp
      rw [alookup_cons_ne hps] at hp'
      exact Bool.noConfusion hp'
  · exact alookup_cons_self
  · exact alookup_cons_self
  · intro p
    by_cases hps : p = start
    · subst hps
      show (alookup [(p, (none : Option Position))] p).isSome = true
        ↔ (alookup [(p, 0)] p).isSome = true
      rw [alookup_cons_self, alookup_cons_self]
      exact Iff.rfl
    · show (alookup [(start, (none : Option Position))] p).isSome = true
        ↔ (alookup [(start, 0)] p).isSome = true
      rw [alookup_cons_ne hps, alookup_cons_ne hps]
      exact Iff.rfl
  · intro p v h _
    by_cases hps : p = start
    · exact hps
    · have h' : alookup [(start, (none : Option Position))] p = some v := h
      rw [alookup_cons_ne hps] at h'
      exact Option.noConfusion h'
  · intro p d h
    by_cases hps : p = start
    · subst hps
      have h' : alookup [(p, (none : Option Position))] p = some (some d) := h
      rw [alookup_cons_self] at h'
      exact Option.noConfusion (Option.some.inj h')
    · have h' : alookup [(start, (none : Option Position))] p = some (some d) := h
      rw [alookup_cons_ne hps] at h'
      exact Option.noConfusion h'
  · exact Or.inr ⟨(0 + Position.hex_distance start goal, 0, start),
      List.mem_singleton_self _, rfl⟩
  · intro p hp
    exact absurd hp (List.not_mem_nil p)
  · intro p hp
    exact absurd hp (List.not_mem_nil p)
  · intro p hp
    exact absurd hp (List.not_mem_nil p)
  · exact List.nodup_nil
  · rfl
  · show 1 ≤ 6 * 0 + 1
    omega
  · exact Nat.zero_le _

/-- Soundness at the `astar` entry point. -/
theorem astar_sound {passOk : Position → Bool} {start goal : Position}
    {stop_range : Int} {max_expand : Nat}
    (hme : 6 * max_expand + 7 ≤ 10 ^ 9) {path : List Position}
    (hres : astar passOk start goal stop_range max_expand = some path) :
    path.head? = some start
      ∧ List.Chain' (fun a b => b ∈ Position.offset_neighbors a) path
      ∧ (∀ c ∈ path, passOk c = true)
      ∧ (∃ t, path.getLast? = some t
          ∧ Position.hex_distance t goal ≤ (max 0 stop_range).toNat)
      ∧ path.length ≤ 6 * max_expand + 2 := by
  by_cases h1 : passOk start = false
  · unfold astar at hres
    rw [if_pos h1] at hres
    exact Option.noConfusion hres
  · have hstart : passOk start = true := by
      cases hps : passOk start
      · exact absurd hps h1
      · rfl
    by_cases h2 : Position.hex_distance start goal ≤ (max 0 stop_range).toNat
    · unfold astar at hres
      rw [if_neg h1, if_pos h2] at hres
      have hpath : path = [start] := (Option.some.inj hres).symm
      subst hpath
      refine ⟨rfl, List.chain'_singleton _, ?_, ⟨start, rfl, h2⟩, ?_⟩
      · intro c hc
        rw [List.mem_singleton.mp hc]
        exact hstart
      · rw [List.length_singleton]
        omega
    · unfold astar at hres
      rw [if_neg h1, if_neg h2] at hres
      exact astarLoop_sound hstart hme _ _ (AInv_init hstart) path hres

/-- Completeness at the `astar` entry point. -/
theorem astar_complete {passOk : Position → Bool} {start goal : Position}
    {stop_range : Int} {max_expand : Nat} {univ : List Position}
    (hme : 6 * max_expand + 7 ≤ 10 ^ 9)
    (hu_nodup : univ.Nodup) (hu : ∀ p, passOk p = true → p ∈ univ)
    (hcap : univ.length ≤ max_expand)
    {k : Nat} {t : Position} (hreach : AReach passOk start k t)
    (ht : Position.hex_distance t goal ≤ (max 0 stop_range).toNat) :
    ∃ path, astar passOk start goal stop_range max_expand = some path := by
  have hstart : passOk start = true := hreach.start_pass
  have h1 : ¬passOk start = false := by
    rw [hstart]
    exact fun hc => Bool.noConfusion hc
  by_cases h2 : Position.hex_distance start goal ≤ (max 0 stop_range).toNat
  · refine ⟨[start], ?_⟩
    unfold astar
    rw [if_neg h1, if_pos h2]
  · unfold astar
    rw [if_neg h1, if_neg h2]
    refine astarLoop_complete hme hu_nodup hu hcap hreach ht _ _ (AInv_init hstart) ?_
    show 1 + 7 * (max_expand - 0) < 7 * max_expand + 2
    omega

/-- Claim C4: whenever the session A* path finder `_find_path_hex`
returns a path, the path begins at `start`, consecutive cells are
offset-grid neighbors, every cell satisfies the occupancy-aware
passability predicate (bounds, terrain unless `pass_islands`, the
do-not-revisit cell, occupancy except `ignore_id`), and the final cell
is within `stop_range` hex-distance of `goal`; and it returns `None`
whenever `start` itself fails the predicate. -/
theorem C4_find_path_hex_spec (sess : Sess) (start goal : Position)
    (pass_islands : Bool) (ignore_id : Option String)
    (avoid_prev : Option Position) (stop_range : Int) (max_expand : Nat)
    (hme : 6 * max_expand + 7 ≤ 10 ^ 9) :
    (sessPassable sess pass_islands ignore_id avoid_prev start = false →
        find_path_hex sess start goal pass_islands ignore_id avoid_prev
          stop_range max_expand = none)
      ∧ ∀ path, find_path_hex sess start goal pass_islands ignore_id avoid_prev
            stop_range max_expand = some path →
          path.head? = some start
            ∧ List.Chain' (fun a b => b ∈ Position.offset_neighbors a) path
            ∧ (∀ c ∈ path, sessPassable sess pass_islands ignore_id avoid_prev c = true)
            ∧ ∃ t, path.getLast? = some t
                ∧ Position.hex_distance t goal ≤ (max 0 stop_range).toNat := by
  constructor
  · intro hb
    unfold find_path_hex
    by_cases hmap : (sess.map.headD []).length = 0 ∨ sess.map.length = 0
    · rw [if_pos hmap]
    · rw [if_neg hmap]
      unfold astar
      rw [if_pos hb]
  · intro path hres
    unfold find_path_hex at hres
    by_cases hmap : (sess.map.headD []).length = 0 ∨ sess.map.length = 0
    · rw [if_pos hmap] at hres
      exact Option.noConfusion hres
    · rw [if_neg hmap] at hres
      obtain ⟨ha, hb, hc, hd, -⟩ := astar_sound hme hres
      exact ⟨ha, hb, hc, hd⟩

/-- A concrete session on a 3x2 all-sea map with no units. -/
def wSess : Sess :=
  { map := [[0, 0, 0], [0, 0, 0]],
    enemy_carrier := ⟨none, none⟩, player_carrier := ⟨none, none⟩,
    enemy_squadrons := [], player_obs := [] }

/-- Witness for C4: on the concrete session, A* from the origin to
`(2,0)` returns the straight three-cell path, and that path satisfies
every property the claim states. -/
theorem C4_find_path_hex_spec_witness :
    find_path_hex wSess ⟨0, 0⟩ ⟨2, 0⟩ false none none 0 8
        = some [⟨0, 0⟩, ⟨1, 0⟩, ⟨2, 0⟩]
      ∧ ([(⟨0, 0⟩ : Position), ⟨1, 0⟩, ⟨2, 0⟩].head? = some ⟨0, 0⟩
          ∧ List.Chain' (fun a b => b ∈ Position.offset_neighbors a)
              [(⟨0, 0⟩ : Position), ⟨1, 0⟩, ⟨2, 0⟩]
          ∧ (∀ c ∈ [(⟨0, 0⟩ : Position), ⟨1, 0⟩, ⟨2, 0⟩],
              sessPassable wSess false none none c = true)
          ∧ ∃ t, [(⟨0, 0⟩ : Position), ⟨1, 0⟩, ⟨2, 0⟩].getLast? = some t
              ∧ Position.hex_distance t ⟨2, 0⟩ ≤ (max 0 (0 : Int)).toNat) := by
  refine ⟨by decide, ?_⟩
  exact (C4_find_path_hex_spec wSess ⟨0, 0⟩ ⟨2, 0⟩ false none none 0 8
    (by decide)).2 [⟨0, 0⟩, ⟨1, 0⟩, ⟨2, 0⟩] (by decide)

/-! ### Relating A* walks and BFS reachability (for claim C3) -/

theorem AReach.trans {passOk : Position → Bool} {a b c : Position} {m n : Nat}
    (h1 : AReach passOk a m b) (h2 : AReach passOk b n c) :
    AReach passOk a (m + n) c := by
  induction h2 with
  | refl _ => exact h1
  | step _ hmem hp ih =>
      rw [← Nat.add_assoc]
      exact AReach.step ih hmem hp

theorem mem_offset_neighbors_symm {p q : Position}
    (h : q ∈ Position.offset_neighbors p) : p ∈ Position.offset_neighbors q := by
  rw [Position.mem_offset_neighbors_iff] at h ⊢
  rw [Position.hex_distance_comm]
  exact h

/-- A BFS walk from a seed, reversed, is an A* walk back to that seed. -/
theorem reach_to_areach {g : HexArray} {il : Bool} {goal : Position} {R k : Nat}
    {p : Position} (h : Reach g il goal R k p) :
    ∃ s, IsSeed g il goal R s ∧ AReach (g.passable il) p k s := by
  induction h with
  | seed hs => exact ⟨_, hs, AReach.refl hs.1⟩
  | step hd hmem hp ih =>
      obtain ⟨s, hs, ha⟩ := ih
      refine ⟨s, hs, ?_⟩
      have h1 : AReach (g.passable il) _ 1 _ :=
        AReach.step (AReach.refl hp) (mem_offset_neighbors_symm hmem) hd.passable
      have h2 := AReach.trans h1 ha
      rw [Nat.add_comm] at h2
      exact h2

/-- An A* walk from a seed cell is a BFS walk. -/
theorem areach_to_reach {g : HexArray} {il : Bool} {goal : Position} {R : Nat}
    {s : Position} (hs : IsSeed g il goal R s) :
    ∀ {k : Nat} {t : Position}, AReach (g.passable il) s k t →
      Reach g il goal R k t := by
  intro k t h
  induction h with
  | refl _ => exact Reach.seed hs
  | step _ hmem hp ih => exact Reach.step ih hmem hp

/-- A neighbor-chained list of passable cells yields an A* walk from its
last element back to its head, of length below the list's. -/
theorem chain_to_areach {pass : Position → Bool} :
    ∀ (l : List Position), l ≠ [] →
      List.Chain' (fun a b => b ∈ Position.offset_neighbors a) l →
      (∀ c ∈ l, pass c = true) →
      ∀ a b, l.head? = some a → l.getLast? = some b →
      ∃ k ≤ l.length, AReach pass b k a
  | [], h, _, _ => absurd rfl h
  | [c], _, _, hp => by
      intro a b ha hb
      have ha' : c = a := Option.some.inj ha
      have hb' : c = b := Option.some.inj hb
      subst ha'
      subst hb'
      exact ⟨0, by omega, AReach.refl (hp c (List.mem_singleton_self c))⟩
  | c :: c2 :: rest, _, hchain, hp => by
      intro a b ha hb
      have ha' : c = a := Option.some.inj ha
      subst ha'
      rw [List.chain'_cons] at hchain
      rw [List.getLast?_cons_cons] at hb
      obtain ⟨k, hk, hwalk⟩ := chain_to_areach (c2 :: rest) (by simp) hchain.2
        (fun x hx => hp x (List.mem_cons_of_mem _ hx)) c2 b rfl hb
      refine ⟨k + 1, ?_, ?_⟩
      · rw [List.length_cons]
        omega
      · exact AReach.step hwalk (mem_offset_neighbors_symm hchain.1)
          (hp c (List.mem_cons_self _ _))

/-! ### The cell scan `allCells` is a duplicate-free cover of the map -/

theorem intRange_nodup (lo hi : Int) : (intRange lo hi).Nodup := by
  refine List.Nodup.map ?_ (List.nodup_range _)
  intro i j hij
  have h : lo + (i : Int) = lo + (j : Int) := hij
  omega

theorem mem_allCells {g : HexArray} {p : Position} :
    p ∈ g.allCells ↔ 0 ≤ p.x ∧ p.x < (g.W : Int) ∧ 0 ≤ p.y ∧ p.y < (g.H : Int) := by
  obtain ⟨px, py⟩ := p
  simp only [HexArray.allCells, List.mem_flatMap, List.mem_map]
  constructor
  · rintro ⟨y, hy, x, hx, heq⟩
    rw [mem_intRange] at hy
    rw [mem_intRange] at hx
    obtain ⟨h1, h2⟩ := Position.mk.injEq _ _ _ _ ▸ heq
    simp only [Position.mk.injEq] at heq
    obtain ⟨rfl, rfl⟩ := heq
    exact ⟨hx.1, hx.2, hy.1, hy.2⟩
  · rintro ⟨h1, h2, h3, h4⟩
    exact ⟨py, mem_intRange.mpr ⟨h3, h4⟩, px, mem_intRange.mpr ⟨h1, h2⟩, rfl⟩

theorem allCells_nodup (g : HexArray) : (g.allCells).Nodup := by
  rw [HexArray.allCells, List.nodup_flatMap]
  constructor
  · intro y _
    refine List.Nodup.map ?_ (intRange_nodup _ _)
    intro x1 x2 h
    simpa using congrArg Position.x h
  · refine List.Pairwise.imp ?_ (intRange_nodup 0 (g.H : Int))
    intro y1 y2 hne q hq1 hq2
    simp only [List.mem_map] at hq1 hq2
    obtain ⟨x1, -, he1⟩ := hq1
    obtain ⟨x2, -, he2⟩ := hq2
    have e1 : y1 = q.y := congrArg Position.y he1
    have e2 : y2 = q.y := congrArg Position.y he2
    exact hne (e1.trans e2.symm)

/-- Claim C3 (amended): on any map whose count of terrain-passable
(in-bounds sea) cells does not exceed the default expansion budget 4000,
`find_path(a, b)` with terrain-only passability, stop range 0 and the
default budget returns a path if and only if the wavefront field
`gradient_field(b)` assigns `a` a finite (non-`INF`) distance. -/
theorem C3_reachability_agreement_amended (g : HexArray) (a b : Position)
    (hpa : g.passable false a = true) (hpb : g.passable false b = true)
    (hcap : ((g.allCells).filter (g.passable false)).length ≤ 4000) :
    (∃ path, g.find_path a b false 0 4000 = some path)
      ↔ dget (g.gradient_field b false 0) a < INF := by
  have hme : 6 * 4000 + 7 ≤ 10 ^ 9 := by norm_num
  have hINF : INF = 100000000 := by norm_num [INF]
  have hWpos : ¬(g.W = 0 ∨ g.H = 0) := by
    obtain ⟨h1, h2, h3, h4⟩ := passable_bounds hpa
    intro hc
    rcases hc with hc | hc
    · rw [hc] at h2
      simp only [Nat.cast_zero] at h2
      omega
    · rw [hc] at h4
      simp only [Nat.cast_zero] at h4
      omega
  have hR : (max 0 (0 : Int)).toNat = 0 := rfl
  constructor
  · rintro ⟨path, hres⟩
    unfold HexArray.find_path at hres
    rw [if_neg hWpos] at hres
    obtain ⟨hhead, hchain, hpass, ⟨t, hlast, ht⟩, hlen⟩ := astar_sound hme hres
    rw [hR] at ht
    have htb : t = b := (Position.hex_distance_eq_zero t b).mp (Nat.le_zero.mp ht)
    rw [htb] at hlast
    have hne : path ≠ [] := by
      intro hc
      rw [hc] at hhead
      cases hhead
    obtain ⟨k, hk, har⟩ := chain_to_areach path hne hchain hpass a b hhead hlast
    have hseed : IsSeed g false b ((max 0 (0 : Int)).toNat) b := by
      refine ⟨hpb, ?_⟩
      rw [(Position.hex_distance_eq_zero b b).mpr rfl]
      omega
    have hreach : Reach g false b ((max 0 (0 : Int)).toNat) k a :=
      areach_to_reach hseed har
    have hcomp := (gradient_field_post g b false 0).complete k a hreach
    omega
  · intro hfin
    obtain ⟨k, hk, hreach⟩ := (gradient_field_post g b false 0).sound a hfin
    obtain ⟨s, hs, har⟩ := reach_to_areach hreach
    have hsb : Position.hex_distance s b ≤ (max 0 (0 : Int)).toNat := by
      rw [Position.hex_distance_comm]
      exact hs.2
    have hu : ∀ p, g.passable false p = true →
        p ∈ (g.allCells).filter (g.passable false) := by
      intro p hp
      refine List.mem_filter.mpr ⟨mem_allCells.mpr (passable_bounds hp), hp⟩
    have hnodup : ((g.allCells).filter (g.passable false)).Nodup :=
      (allCells_nodup g).filter _
    obtain ⟨path, hpath⟩ := astar_complete hme hnodup hu hcap har hsb
    refine ⟨path, ?_⟩
    unfold HexArray.find_path
    rw [if_neg hWpos]
    exact hpath

/-- A concrete 3x2 all-sea map for the amended C3 witness. -/
def wMap : HexArray := ⟨[[0, 0, 0], [0, 0, 0]]⟩

/-- Witness for the amended C3: on the concrete map the wavefront field
reaches the corner, so the theorem yields an A* path. -/
theorem C3_reachability_agreement_amended_witness :
    dget (wMap.gradient_field ⟨2, 0⟩ false 0) ⟨0, 0⟩ < INF
      ∧ ∃ path, wMap.find_path ⟨0, 0⟩ ⟨2, 0⟩ false 0 4000 = some path := by
  have hfin : dget (wMap.gradient_field ⟨2, 0⟩ false 0) ⟨0, 0⟩ < INF := by decide
  exact ⟨hfin, (C3_reachability_agreement_amended wMap ⟨0, 0⟩ ⟨2, 0⟩
    (by decide) (by decide) (by decide)).mpr hfin⟩

/-! ### A map breaking claim C3 as stated: a 4002-cell all-sea line -/

/-- Hex distance of two cells in row zero is plain horizontal distance. -/
theorem hex_distance_row (u v : Int) :
    Position.hex_distance ⟨u, 0⟩ ⟨v, 0⟩ = (u - v).natAbs := by
  rw [Position.hex_distance_expand]
  omega

/-- The even-row neighbor list, written out. -/
theorem offset_neighbors_row (x : Int) :
    Position.offset_neighbors ⟨x, 0⟩ =
      [⟨x + 1, 0⟩, ⟨x, -1⟩, ⟨x - 1, -1⟩, ⟨x - 1, 0⟩, ⟨x - 1, 1⟩, ⟨x, 1⟩] := by
  simp only [Position.offset_neighbors]
  norm_num [Position.mk.injEq]
  omega

/-- A single-row all-sea map of 4002 cells. -/
def lineMap : HexArray := ⟨[List.replicate 4002 0]⟩

theorem lineMap_W : lineMap.W = 4002 := by
  show (([List.replicate 4002 (0 : Int)].headD []).length) = 4002
  rw [List.headD_cons, List.length_replicate]

theorem lineMap_passable {x y : Int} :
    lineMap.passable false ⟨x, y⟩ = true ↔ 0 ≤ x ∧ x < 4002 ∧ y = 0 := by
  have hW : lineMap.W = 4002 := lineMap_W
  have hH : lineMap.H = 1 := rfl
  simp only [HexArray.passable, Bool.false_or, Bool.and_eq_true, decide_eq_true_eq,
    hW, hH]
  constructor
  · rintro ⟨⟨h1, h2, h3, h4⟩, -⟩
    refine ⟨h1, by exact_mod_cast h2, by omega⟩
  · rintro ⟨h1, h2, rfl⟩
    refine ⟨⟨h1, by exact_mod_cast h2, le_refl 0, by norm_num⟩, ?_⟩
    show lineMap.cellAt x 0 = 0
    simp only [HexArray.cellAt, lineMap]
    rw [show ((0 : Int).toNat) = 0 from rfl, List.getD_cons_zero,
      List.getD_eq_getElem?_getD, List.getElem?_replicate,
      if_pos (show x.toNat < 4002 by omega)]
    rfl

theorem lineMap_impassable {x y : Int} (h : ¬(0 ≤ x ∧ x < 4002 ∧ y = 0)) :
    lineMap.passable false ⟨x, y⟩ = false := by
  rw [Bool.eq_false_iff]
  intro hc
  exact h (lineMap_passable.mp hc)

/-- Unfolding lemmas for the A* neighbor expansion pass. -/
theorem expandNbrs_cons_skip {passOk : Position → Bool} {goal pos : Position}
    {gv : Nat} {np : Position} {rest : List Position} {st : AState}
    (h : passOk np = false) :
    expandNbrs passOk goal pos gv (np :: rest) st
      = expandNbrs passOk goal pos gv rest st := by
  simp only [expandNbrs]
  rw [if_neg (by simp [h])]

theorem expandNbrs_cons_old {passOk : Position → Bool} {goal pos : Position}
    {gv : Nat} {np : Position} {rest : List Position} {st : AState}
    (h : passOk np = true)
    (hg : ¬(gv + 1 < (alookup st.gscore np).getD (10 ^ 9))) :
    expandNbrs passOk goal pos gv (np :: rest) st
      = expandNbrs passOk goal pos gv rest st := by
  simp only [expandNbrs]
  rw [if_pos h, if_neg hg]

theorem expandNbrs_cons_push {passOk : Position → Bool} {goal pos : Position}
    {gv : Nat} {np : Position} {rest : List Position} {st : AState}
    (h : passOk np = true)
    (hg : gv + 1 < (alookup st.gscore np).getD (10 ^ 9)) :
    expandNbrs passOk goal pos gv (np :: rest) st
      = expandNbrs passOk goal pos gv rest
          { heap := st.heap ++ [(gv + 1 + Position.hex_distance np goal, gv + 1, np)],
            came := (np, some pos) :: st.came,
            gscore := (np, gv + 1) :: st.gscore,
            closed := st.closed, expands := st.expands } := by
  simp only [expandNbrs]
  rw [if_pos h, if_pos hg]

theorem expandNbrs_nil {passOk : Position → Bool} {goal pos : Position}
    {gv : Nat} {st : AState} : expandNbrs passOk goal pos gv [] st = st := rfl

/-- The cell the line-map A* run expands at step `j`. -/
def cexEntry (j : Nat) : Position := ⟨4001 - (j : Int), 0⟩

/-- The g-score table after `i` expansions of the line-map run. -/
def cexGs : Nat → List (Position × Nat)
  | 0 => [(cexEntry 0, 0)]
  | j + 1 => (cexEntry (j + 1), j + 1) :: cexGs j

/-- The parent map after `i` expansions of the line-map run. -/
def cexCame : Nat → List (Position × Option Position)
  | 0 => [(cexEntry 0, none)]
  | j + 1 => (cexEntry (j + 1), some (cexEntry j)) :: cexCame j

/-- The closed set after `i` expansions of the line-map run. -/
def cexClosed : Nat → List Position
  | 0 => []
  | j + 1 => cexEntry j :: cexClosed j

/-- The full A* state after `i` expansions of the line-map run: a
single-entry heap marching leftward. -/
def cexSt (i : Nat) : AState :=
  { heap := [(4001, i, cexEntry i)], came := cexCame i, gscore := cexGs i,
    closed := cexClosed i, expands := i }

theorem cexEntry_inj {a b : Nat} (h : cexEntry a = cexEntry b) : a = b := by
  have hx : (4001 : Int) - (a : Int) = 4001 - (b : Int) := congrArg Position.x h
  omega

theorem cexEntry_ne {a b : Nat} (h : a ≠ b) : cexEntry a ≠ cexEntry b :=
  fun hc => h (cexEntry_inj hc)

theorem alookup_cexGs_none : ∀ (i m : Nat), i < m →
    alookup (cexGs i) (cexEntry m) = none
  | 0, m, hm => by
      rw [show cexGs 0 = [(cexEntry 0, 0)] from rfl,
        alookup_cons_ne (cexEntry_ne (by omega))]
      rfl
  | j + 1, m, hm => by
      rw [show cexGs (j + 1) = (cexEntry (j + 1), j + 1) :: cexGs j from rfl,
        alookup_cons_ne (cexEntry_ne (by omega))]
      exact alookup_cexGs_none j m (by omega)

theorem alookup_cexGs_self : ∀ (j : Nat), alookup (cexGs j) (cexEntry j) = some j
  | 0 => alookup_cons_self
  | _ + 1 => alookup_cons_self

theorem cexEntry_not_mem_closed : ∀ (i m : Nat), i ≤ m → cexEntry m ∉ cexClosed i
  | 0, m, _ => List.not_mem_nil _
  | j + 1, m, hm => by
      rw [show cexClosed (j + 1) = cexEntry j :: cexClosed j from rfl]
      intro hc
      rcases List.mem_cons.mp hc with he | hc'
      · exact absurd (cexEntry_inj he) (by omega)
      · exact cexEntry_not_mem_closed j m (by omega) hc'

/-- One iteration of the line-map A* run: expand the single heap entry,
push its left neighbor, burn one budget unit. -/
theorem cex_step (i : Nat) (hi : i < 4000) (fuel : Nat) :
    astarLoop (lineMap.passable false) ⟨0, 0⟩ 0 4000 (fuel + 1) (cexSt i)
      = astarLoop (lineMap.passable false) ⟨0, 0⟩ 0 4000 fuel (cexSt (i + 1)) := by
  have hexp : (cexSt i).expands < 4000 := hi
  have hpop : popMin (cexSt i).heap = some ((4001, i, cexEntry i), []) := by
    show popMin [(4001, i, cexEntry i)] = some ((4001, i, cexEntry i), [])
    simp [popMin, heapMin, List.erase_cons_head]
  rw [astarLoop_pop hexp hpop]
  have hcl : ¬((4001, i, cexEntry i).2.2 ∈ (cexSt i).closed) := by
    show ¬(cexEntry i ∈ cexClosed i)
    exact cexEntry_not_mem_closed i i (le_refl i)
  rw [if_neg hcl]
  have hgl : ¬(Position.hex_distance (4001, i, cexEntry i).2.2 ⟨0, 0⟩ ≤ 0) := by
    show ¬(Position.hex_distance ⟨4001 - (i : Int), 0⟩ ⟨0, 0⟩ ≤ 0)
    rw [hex_distance_row]
    omega
  rw [if_neg hgl]
  congr 1
  show expandNbrs (lineMap.passable false) ⟨0, 0⟩ ⟨4001 - (i : Int), 0⟩ i
      (Position.offset_neighbors ⟨4001 - (i : Int), 0⟩)
      { heap := [], came := cexCame i, gscore := cexGs i,
        closed := cexEntry i :: cexClosed i, expands := i + 1 }
    = cexSt (i + 1)
  rw [offset_neighbors_row]
  have hn1 : expandNbrs (lineMap.passable false) ⟨0, 0⟩ ⟨4001 - (i : Int), 0⟩ i
      (⟨4001 - (i : Int) + 1, 0⟩ ::
        [⟨4001 - (i : Int), -1⟩, ⟨4001 - (i : Int) - 1, -1⟩, ⟨4001 - (i : Int) - 1, 0⟩,
          ⟨4001 - (i : Int) - 1, 1⟩, ⟨4001 - (i : Int), 1⟩])
      { heap := [], came := cexCame i, gscore := cexGs i,
        closed := cexEntry i :: cexClosed i, expands := i + 1 }
    = expandNbrs (lineMap.passable false) ⟨0, 0⟩ ⟨4001 - (i : Int), 0⟩ i
      [⟨4001 - (i : Int), -1⟩, ⟨4001 - (i : Int) - 1, -1⟩, ⟨4001 - (i : Int) - 1, 0⟩,
        ⟨4001 - (i : Int) - 1, 1⟩, ⟨4001 - (i : Int), 1⟩]
      { heap := [], came := cexCame i, gscore := cexGs i,
        closed := cexEntry i :: cexClosed i, expands := i + 1 } := by
    cases i with
    | zero => exact expandNbrs_cons_skip (lineMap_impassable (by norm_num))
    | succ j =>
        refine expandNbrs_cons_old (lineMap_passable.mpr ⟨by omega, by omega, rfl⟩) ?_
        have he : (⟨4001 - ((j + 1 : Nat) : Int) + 1, 0⟩ : Position) = cexEntry j := by
          simp only [cexEntry, Position.mk.injEq, and_true]
          push_cast
          ring
        rw [he]
        show ¬(j + 1 + 1 <
          (alookup ((cexEntry (j + 1), j + 1) :: cexGs j) (cexEntry j)).getD (10 ^ 9))
        rw [alookup_cons_ne (cexEntry_ne (by omega)), alookup_cexGs_self j]
        show ¬(j + 1 + 1 < j)
        omega
  rw [hn1]
  rw [expandNbrs_cons_skip (lineMap_impassable (by omega)),
    expandNbrs_cons_skip (lineMap_impassable (by omega))]
  have he1 : (⟨4001 - (i : Int) - 1, 0⟩ : Position) = cexEntry (i + 1) := by
    simp only [cexEntry, Position.mk.injEq, and_true]
    push_cast
    ring
  rw [expandNbrs_cons_push (lineMap_passable.mpr ⟨by omega, by omega, rfl⟩)
    (by
      rw [he1, alookup_cexGs_none i (i + 1) (by omega)]
      show i + 1 < 10 ^ 9
      have h9 : (10 : Nat) ^ 9 = 1000000000 := by norm_num
      omega)]
  rw [expandNbrs_cons_skip (lineMap_impassable (by omega)),
    expandNbrs_cons_skip (lineMap_impassable (by omega)), expandNbrs_nil]
  rw [he1]
  have hhex : i + 1 + Position.hex_distance (cexEntry (i + 1)) ⟨0, 0⟩ = 4001 := by
    show i + 1 + Position.hex_distance ⟨4001 - ((i + 1 : Nat) : Int), 0⟩ ⟨0, 0⟩ = 4001
    rw [hex_distance_row]
    omega
  have hcex : cexSt (i + 1)
      = ⟨[(4001, i + 1, cexEntry (i + 1))],
          (cexEntry (i + 1), some (cexEntry i)) :: cexCame i,
          (cexEntry (i + 1), i + 1) :: cexGs i,
          cexEntry i :: cexClosed i, i + 1⟩ := rfl
  rw [hcex]
  rw [show (⟨4001 - (i : Int), 0⟩ : Position) = cexEntry i from rfl]
  rw [hhex]
  rfl

/-- Running the line-map A* from state `i` with `4000 - i` budget left
ends in budget exhaustion. -/
theorem cex_none : ∀ (n i fuel : Nat), i + n = 4000 →
    astarLoop (lineMap.passable false) ⟨0, 0⟩ 0 4000 (fuel + n + 1) (cexSt i) = none
  | 0, i, fuel, h => by
      have hi : i = 4000 := by omega
      subst hi
      exact astarLoop_stop (by show ¬(4000 < 4000); omega)
  | n + 1, i, fuel, h => by
      have hi : i < 4000 := by omega
      show astarLoop (lineMap.passable false) ⟨0, 0⟩ 0 4000 ((fuel + n + 1) + 1)
        (cexSt i) = none
      rw [cex_step i hi (fuel + n + 1)]
      exact cex_none n (i + 1) fuel (by omega)

/-- Stepping right along the sea row is an A* walk. -/
theorem line_walk_right : ∀ (n : Nat) (x : Int), 0 ≤ x → x + n ≤ 4001 →
    AReach (lineMap.passable false) ⟨x, 0⟩ n ⟨x + (n : Int), 0⟩
  | 0, x, h0, hn => by
      rw [show x + ((0 : Nat) : Int) = x from by push_cast; ring]
      exact AReach.refl (lineMap_passable.mpr ⟨h0, by omega, rfl⟩)
  | n + 1, x, h0, hn => by
      have hn' : x + (n : Int) ≤ 4001 := by push_cast at hn ⊢; omega
      have ih := line_walk_right n x h0 hn'
      refine AReach.step ih ?_ ?_
      · rw [Position.mem_offset_neighbors_iff, hex_distance_row]
        push_cast
        omega
      · refine lineMap_passable.mpr ⟨by push_cast; omega, by push_cast at hn ⊢; omega, rfl⟩

/-- Stepping left along the sea row is an A* walk. -/
theorem line_walk_left : ∀ (n : Nat) (x : Int), (n : Int) ≤ x → x ≤ 4001 →
    AReach (lineMap.passable false) ⟨x, 0⟩ n ⟨x - (n : Int), 0⟩
  | 0, x, h0, hn => by
      rw [show x - ((0 : Nat) : Int) = x from by push_cast; ring]
      exact AReach.refl (lineMap_passable.mpr ⟨by push_cast at h0; omega, by omega, rfl⟩)
  | n + 1, x, h0, hn => by
      have h0' : (n : Int) ≤ x := by push_cast at h0 ⊢; omega
      have ih := line_walk_left n x h0' hn
      refine AReach.step ih ?_ ?_
      · rw [Position.mem_offset_neighbors_iff, hex_distance_row]
        push_cast
        omega
      · refine lineMap_passable.mpr ⟨by push_cast at h0 ⊢; omega, by omega, rfl⟩

/-- Counterexample to claim C3 as stated: on the 4002-cell all-sea line
map — whose sea region is fully connected, with both endpoints in-bounds
sea cells — the wavefront field from the origin reaches the far end
(finite distance), yet `find_path` with the default expansion budget
4000 returns `None`: the two planners disagree on reachability. -/
theorem C3_counterexample :
    lineMap.passable false ⟨4001, 0⟩ = true
      ∧ lineMap.passable false ⟨0, 0⟩ = true
      ∧ (∀ a b : Position, lineMap.passable false a = true →
          lineMap.passable false b = true →
          ∃ k, AReach (lineMap.passable false) a k b)
      ∧ dget (lineMap.gradient_field ⟨0, 0⟩ false 0) ⟨4001, 0⟩ < INF
      ∧ lineMap.find_path ⟨4001, 0⟩ ⟨0, 0⟩ false 0 4000 = none := by
  have hpa : lineMap.passable false ⟨4001, 0⟩ = true :=
    lineMap_passable.mpr ⟨by norm_num, by norm_num, rfl⟩
  have hpo : lineMap.passable false ⟨0, 0⟩ = true :=
    lineMap_passable.mpr ⟨le_refl 0, by norm_num, rfl⟩
  refine ⟨hpa, hpo, ?_, ?_, ?_⟩
  · intro a b ha hb
    obtain ⟨xa, ya⟩ := a
    obtain ⟨xb, yb⟩ := b
    obtain ⟨ha1, ha2, rfl⟩ := lineMap_passable.mp ha
    obtain ⟨hb1, hb2, rfl⟩ := lineMap_passable.mp hb
    rcases le_or_lt xa xb with hle | hlt
    · have hw := line_walk_right (xb - xa).toNat xa ha1 (by omega)
      have heq : (⟨xa + (((xb - xa).toNat : Nat) : Int), 0⟩ : Position) = ⟨xb, 0⟩ := by
        simp only [Position.mk.injEq, and_true]
        omega
      exact ⟨(xb - xa).toNat, heq ▸ hw⟩
    · have hw := line_walk_left (xa - xb).toNat xa (by omega) (by omega)
      have heq : (⟨xa - (((xa - xb).toNat : Nat) : Int), 0⟩ : Position) = ⟨xb, 0⟩ := by
        simp only [Position.mk.injEq, and_true]
        omega
      exact ⟨(xa - xb).toNat, heq ▸ hw⟩
  · have hw := line_walk_right 4001 0 (le_refl 0) (by norm_num)
    have heq : (⟨(0 : Int) + ((4001 : Nat) : Int), 0⟩ : Position) = ⟨4001, 0⟩ := by
      simp only [Position.mk.injEq, and_true]
      norm_num
    have hw' : AReach (lineMap.passable false) ⟨0, 0⟩ 4001 ⟨4001, 0⟩ := heq ▸ hw
    have hseed : IsSeed lineMap false ⟨0, 0⟩ ((max 0 (0 : Int)).toNat) ⟨0, 0⟩ := by
      refine ⟨hpo, ?_⟩
      rw [(Position.hex_distance_eq_zero _ _).mpr rfl]
      omega
    have hreach := areach_to_reach hseed hw'
    have hcomp := (gradient_field_post lineMap ⟨0, 0⟩ false 0).complete 4001 _ hreach
    have hINF : INF = 100000000 := by norm_num [INF]
    omega
  · unfold HexArray.find_path
    rw [if_neg (by
      rw [lineMap_W, show lineMap.H = 1 from rfl]
      norm_num : ¬(lineMap.W = 0 ∨ lineMap.H = 0))]
    unfold astar
    rw [if_neg (by rw [hpa]; exact fun hc => Bool.noConfusion hc)]
    rw [if_neg (by decide :
      ¬(Position.hex_distance ⟨4001, 0⟩ ⟨0, 0⟩ ≤ (max 0 (0 : Int)).toNat))]
    show astarLoop (lineMap.passable false) ⟨0, 0⟩ 0 4000 (24001 + 4000 + 1)
      (cexSt 0) = none
    exact cex_none 4000 0 24001 (by omega)

/-! ### The game board (`turn.py`): units, holders, end-of-turn rules -/

/-- The slice of `UnitState` / `CarrierState` / `SquadronState`
(`schemas.py`) that `GameBord` reads.  `is_carrier` stands for the
`isinstance(..., CarrierState)` checks; `state` is only meaningful for
squadrons.  `fuel` is read by `validate_orders` but the field is absent
from the repository's `schemas.py` (the code would raise
`AttributeError`); it is modelled from the spec as the squadron's
range. -/
structure GUnit where
  side : String
  is_carrier : Bool
  id : String
  hp : Int
  max_hp : Int
  speed : Int
  vision : Int
  pos : Position
  target : Option Position
  state : String
  fuel : Int
deriving DecidableEq

/-- `UnitHolder` (`turn.py`): per-turn bookkeeping around a unit.
`intel` is the time-keyed sighting log (the Python dict, newest binding
first). -/
structure GHolder where
  unit : GUnit
  ticks : Int
  next_time : Int
  intel : List (Int × Position)
deriving DecidableEq

/-- `UnitState.is_active` plus the `SquadronState` override
(`schemas.py`): positive hp, on-map position, and for squadrons a state
that is neither `lost` nor `base`. -/
def gIsActive (u : GUnit) : Bool :=
  decide (u.hp > 0) && decide (u.pos.x ≥ 0) && decide (u.pos.y ≥ 0)
    && (u.is_carrier || (!(u.state == "lost") && !(u.state == "base")))

/-- `GameBord._get_carrier_by_side` (`turn.py`): the side's summed
carrier hp and summed squadron hp. -/
def get_carrier_by_side (units : List GHolder) (side : String) : Int × Int :=
  units.foldl
    (fun cs u =>
      if u.unit.side == side then
        if u.unit.is_carrier then (cs.1 + u.unit.hp, cs.2)
        else (cs.1, cs.2 + u.unit.hp)
      else cs)
    (0, 0)

/-- The end-of-turn decision block of `GameBord.turn_forward`
(`turn.py`): the sequential `if`/`elif` chain over the two sides' hp
sums; when no branch fires `self.result` keeps its previous value. -/
def end_result (units : List GHolder) (turn max_turn : Int)
    (prev : Option String) : Option String :=
  let aCar := (get_carrier_by_side units "A").1
  let aSq := (get_carrier_by_side units "A").2
  let bCar := (get_carrier_by_side units "B").1
  let bSq := (get_carrier_by_side units "B").2
  if aCar ≤ 0 ∧ bCar ≤ 0 then some "draw"
  else if bCar ≤ 0 then some "A"
  else if aCar ≤ 0 then some "B"
  else if aSq > 0 ∧ bSq ≤ 0 then some "A"
  else if bSq > 0 ∧ aSq ≤ 0 then some "B"
  else if turn > max_turn then
    if aCar > bCar then some "A"
    else if bCar > aCar then some "B"
    else some "draw"
  else prev

/-- Claim C6: the stored result after `turn_forward` (for a game not
already decided, `prev = none`): draw when both carrier hp sums are 0 or
below, the opposing side when exactly one is, else the squadron-wipe
asymmetry, else the hp comparison once the turn count exceeds the
ceiling, else no result. -/
theorem C6_turn_result_rules (units : List GHolder) (turn max_turn : Int) :
    ((get_carrier_by_side units "A").1 ≤ 0 ∧ (get_carrier_by_side units "B").1 ≤ 0 →
        end_result units turn max_turn none = some "draw")
      ∧ ((get_carrier_by_side units "B").1 ≤ 0 ∧ 0 < (get_carrier_by_side units "A").1 →
          end_result units turn max_turn none = some "A")
      ∧ ((get_carrier_by_side units "A").1 ≤ 0 ∧ 0 < (get_carrier_by_side units "B").1 →
          end_result units turn max_turn none = some "B")
      ∧ (0 < (get_carrier_by_side units "A").1 → 0 < (get_carrier_by_side units "B").1 →
          0 < (get_carrier_by_side units "A").2 → (get_carrier_by_side units "B").2 ≤ 0 →
          end_result units turn max_turn none = some "A")
      ∧ (0 < (get_carrier_by_side units "A").1 → 0 < (get_carrier_by_side units "B").1 →
          0 < (get_carrier_by_side units "B").2 → (get_carrier_by_side units "A").2 ≤ 0 →
          end_result units turn max_turn none = some "B")
      ∧ (0 < (get_carrier_by_side units "A").1 → 0 < (get_carrier_by_side units "B").1 →
          ¬(0 < (get_carrier_by_side units "A").2 ∧ (get_carrier_by_side units "B").2 ≤ 0) →
          ¬(0 < (get_carrier_by_side units "B").2 ∧ (get_carrier_by_side units "A").2 ≤ 0) →
          max_turn < turn →
          end_result units turn max_turn none
            = (if (get_carrier_by_side units "B").1 < (get_carrier_by_side units "A").1
                then some "A"
              else if (get_carrier_by_side units "A").1 < (get_carrier_by_side units "B").1
                then some "B"
              else some "draw"))
      ∧ (0 < (get_carrier_by_side units "A").1 → 0 < (get_carrier_by_side units "B").1 →
          ¬(0 < (get_carrier_by_side units "A").2 ∧ (get_carrier_by_side units "B").2 ≤ 0) →
          ¬(0 < (get_carrier_by_side units "B").2 ∧ (get_carrier_by_side units "A").2 ≤ 0) →
          turn ≤ max_turn →
          end_result units turn max_turn none = none) := by
  simp only [end_result]
  set aCar := (get_carrier_by_side units "A").1 with hac
  set aSq := (get_carrier_by_side units "A").2 with has
  set bCar := (get_carrier_by_side units "B").1 with hbc
  set bSq := (get_carrier_by_side units "B").2 with hbs
  refine ⟨?_, ?_, ?_, ?_, ?_, ?_, ?_⟩
  · intro h
    rw [if_pos h]
  · rintro ⟨h1, h2⟩
    rw [if_neg (by omega), if_pos h1]
  · rintro ⟨h1, h2⟩
    rw [if_neg (by omega), if_neg (by omega), if_pos h1]
  · intro h1 h2 h3 h4
    rw [if_neg (by omega), if_neg (by omega), if_neg (by omega), if_pos ⟨h3, h4⟩]
  · intro h1 h2 h3 h4
    rw [if_neg (by omega), if_neg (by omega), if_neg (by omega), if_neg (by omega),
      if_pos ⟨h3, h4⟩]
  · intro h1 h2 h3 h4 h5
    rw [if_neg (by omega), if_neg (by omega), if_neg (by omega), if_neg h3,
      if_neg h4, if_pos h5]
  · intro h1 h2 h3 h4 h5
    rw [if_neg (by omega), if_neg (by omega), if_neg (by omega), if_neg h3,
      if_neg h4, if_neg (by omega)]

/-! ### Order validation (`GameBord.validate_orders`, C9) -/

/-- `PlayerOrders` (`schemas.py`): the two optional targets read by
`validate_orders`. -/
structure POrders where
  carrier_target : Option Position
  launch_target : Option Position
deriving DecidableEq

/-- The carrier-target block of `validate_orders` (`turn.py`): message
list and whether the function returns early (carrier missing or sunk).
Message strings keep the fixed prefix of the source's f-strings. -/
def ct_check (g : HexArray) (carrier : Option GHolder)
    (tgt : Option Position) : List String × Bool :=
  match tgt with
  | none => ([], false)
  | some ct =>
      match carrier with
      | none => (["Carrier not found or sunk."], true)
      | some c =>
          if !gIsActive c.unit then (["Carrier not found or sunk."], true)
          else if !(decide (0 ≤ ct.x ∧ ct.x < (g.W : Int) ∧ 0 ≤ ct.y ∧ ct.y < (g.H : Int))) then
            (["Carrier target out of map bounds."], false)
          else if !(g.cellAt ct.x ct.y == 0) then
            (["Carrier target is not on sea."], false)
          else ([], false)

/-- The launch-target block of `validate_orders` (`turn.py`), using the
spec-modelled `fuel` field (absent from the repository's
`schemas.py`). -/
def lt_check (g : HexArray) (carrier squadron : Option GHolder)
    (tgt : Option Position) : List String :=
  match tgt with
  | none => []
  | some lt =>
      match squadron, carrier with
      | some sq, some c =>
          if !gIsActive c.unit then ["No available squadron to launch."]
          else if !(decide (0 ≤ lt.x ∧ lt.x < (g.W : Int) ∧ 0 ≤ lt.y ∧ lt.y < (g.H : Int))) then
            ["Launch target out of map bounds."]
          else if !(g.cellAt lt.x lt.y == 0) then
            ["Launch target is not on sea."]
          else if sq.unit.fuel < ((Position.hex_distance c.unit.pos lt : Nat) : Int) then
            ["Launch target is out of squadron range."]
          else []
      | _, _ => ["No available squadron to launch."]

/-- `GameBord.validate_orders` (`turn.py`): select the side's first
carrier and first base-state squadron, run the carrier-target block
(early return when the carrier is missing or sunk), then the
launch-target block. -/
def validate_orders (g : HexArray) (units : List GHolder) (side : String)
    (orders : Option POrders) : List String :=
  match orders with
  | none => []
  | some o =>
      let carrier := units.find? (fun u => u.unit.side == side && u.unit.is_carrier)
      let squadron := units.find? (fun u => u.unit.side == side && !u.unit.is_carrier
        && u.unit.state == "base")
      let ct := ct_check g carrier o.carrier_target
      if ct.2 then ct.1
      else ct.1 ++ lt_check g carrier squadron o.launch_target

theorem ct_check_flag_msgs {g : HexArray} {carrier : Option GHolder}
    {tgt : Option Position} (h : (ct_check g carrier tgt).2 = true) :
    (ct_check g carrier tgt).1 ≠ [] := by
  cases tgt with
  | none => simp [ct_check] at h
  | some ct =>
      cases carrier with
      | none => simp [ct_check]
      | some c =>
          simp only [ct_check] at h ⊢
          by_cases ha : !gIsActive c.unit
          · rw [if_pos ha]
            simp
          · rw [if_neg ha] at h ⊢
            split_ifs at h ⊢ <;> simp_all

theorem ct_check_flag_iff {g : HexArray} {carrier : Option GHolder}
    {tgt : Option Position} :
    (ct_check g carrier tgt).2 = true ↔
      (∃ ct, tgt = some ct) ∧ ∀ c, carrier = some c → gIsActive c.unit = false := by
  cases tgt with
  | none => simp [ct_check]
  | some ct =>
      cases carrier with
      | none => simp [ct_check]
      | some c =>
          simp only [ct_check]
          by_cases ha : gIsActive c.unit
          · rw [if_neg (by simp [ha])]
            split_ifs <;> simp_all
          · rw [if_pos (by simp [ha])]
            simp_all

theorem ct_check_ne {g : HexArray} {carrier : Option GHolder}
    {tgt : Option Position} :
    (ct_check g carrier tgt).1 ≠ [] ↔
      ∃ ct, tgt = some ct ∧
        ((∀ c, carrier = some c → gIsActive c.unit = false)
          ∨ ¬(0 ≤ ct.x ∧ ct.x < (g.W : Int) ∧ 0 ≤ ct.y ∧ ct.y < (g.H : Int))
          ∨ g.cellAt ct.x ct.y ≠ 0) := by
  cases tgt with
  | none => simp [ct_check]
  | some ct =>
      cases carrier with
      | none => simp [ct_check]
      | some c =>
          simp only [ct_check]
          by_cases ha : gIsActive c.unit
          · rw [if_neg (by simp [ha])]
            by_cases hb : 0 ≤ ct.x ∧ ct.x < (g.W : Int) ∧ 0 ≤ ct.y ∧ ct.y < (g.H : Int)
            · rw [if_neg (by simp [hb])]
              by_cases hc : g.cellAt ct.x ct.y = 0
              · rw [if_neg (by simp [hc])]
                simp_all
              · rw [if_pos (by simp [hc])]
                simp_all
            · rw [if_pos (by simp [hb])]
              simp_all
          · rw [if_pos (by simp [ha])]
            simp_all

theorem lt_check_ne {g : HexArray} {carrier squadron : Option GHolder}
    {tgt : Option Position} :
    lt_check g carrier squadron tgt ≠ [] ↔
      ∃ lt, tgt = some lt ∧
        (squadron = none
          ∨ (∀ c, carrier = some c → gIsActive c.unit = false)
          ∨ ¬(0 ≤ lt.x ∧ lt.x < (g.W : Int) ∧ 0 ≤ lt.y ∧ lt.y < (g.H : Int))
          ∨ g.cellAt lt.x lt.y ≠ 0
          ∨ ∃ c sq, carrier = some c ∧ squadron = some sq ∧
              sq.unit.fuel < ((Position.hex_distance c.unit.pos lt : Nat) : Int)) := by
  cases tgt with
  | none => simp [lt_check]
  | some lt =>
      cases squadron with
      | none => simp [lt_check]
      | some sq =>
          cases carrier with
          | none => simp [lt_check]
          | some c =>
              simp only [lt_check]
              by_cases ha : gIsActive c.unit
              · rw [if_neg (by simp [ha])]
                by_cases hb : 0 ≤ lt.x ∧ lt.x < (g.W : Int) ∧ 0 ≤ lt.y ∧ lt.y < (g.H : Int)
                · rw [if_neg (by simp [hb])]
                  by_cases hc : g.cellAt lt.x lt.y = 0
                  · rw [if_neg (by simp [hc])]
                    by_cases hd : sq.unit.fuel
                        < ((Position.hex_distance c.unit.pos lt : Nat) : Int)
                    · rw [if_pos hd]
                      simp_all
                    · rw [if_neg hd]
                      simp_all
                  · rw [if_pos (by simp [hc])]
                    simp_all
                · rw [if_pos (by simp [hb])]
                  simp_all
              · rw [if_pos (by simp [ha])]
                simp_all

/-- Claim C9 (amended): `validate_orders` rejects (returns a non-empty
message list) exactly when a carrier target is given while the side's
carrier is missing or sunk, out of bounds or not sea; or a launch target
is given while no squadron in state `base` exists (regardless of its
hp), the side's carrier is missing or sunk, the target is out of bounds
or not sea, or the carrier-to-target hex distance exceeds the squadron's
fuel; and accepts (returns `[]`) otherwise. -/
theorem C9_validate_orders_amended (g : HexArray) (units : List GHolder)
    (side : String) (o : POrders) :
    validate_orders g units side (some o) ≠ [] ↔
      (∃ ct, o.carrier_target = some ct ∧
          ((∀ c, units.find? (fun u => u.unit.side == side && u.unit.is_carrier)
                = some c → gIsActive c.unit = false)
            ∨ ¬(0 ≤ ct.x ∧ ct.x < (g.W : Int) ∧ 0 ≤ ct.y ∧ ct.y < (g.H : Int))
            ∨ g.cellAt ct.x ct.y ≠ 0))
      ∨ (∃ lt, o.launch_target = some lt ∧
          (units.find? (fun u => u.unit.side == side && !u.unit.is_carrier
              && u.unit.state == "base") = none
            ∨ (∀ c, units.find? (fun u => u.unit.side == side && u.unit.is_carrier)
                  = some c → gIsActive c.unit = false)
            ∨ ¬(0 ≤ lt.x ∧ lt.x < (g.W : Int) ∧ 0 ≤ lt.y ∧ lt.y < (g.H : Int))
            ∨ g.cellAt lt.x lt.y ≠ 0
            ∨ ∃ c sq, units.find? (fun u => u.unit.side == side && u.unit.is_carrier)
                  = some c
                ∧ units.find? (fun u => u.unit.side == side && !u.unit.is_carrier
                    && u.unit.state == "base") = some sq
                ∧ sq.unit.fuel < ((Position.hex_distance c.unit.pos lt : Nat) : Int))) := by
  simp only [validate_orders]
  set carrier := units.find? (fun u => u.unit.side == side && u.unit.is_carrier)
    with hcar
  set squadron := units.find? (fun u => u.unit.side == side && !u.unit.is_carrier
    && u.unit.state == "base") with hsq
  by_cases hflag : (ct_check g carrier o.carrier_target).2 = true
  · rw [if_pos hflag]
    have hne := ct_check_flag_msgs hflag
    obtain ⟨⟨ct, hct⟩, hcu⟩ := ct_check_flag_iff.mp hflag
    constructor
    · intro _
      exact Or.inl ⟨ct, hct, Or.inl hcu⟩
    · intro _
      exact hne
  · rw [if_neg hflag]
    rw [ne_eq, List.append_eq_nil, not_and]
    constructor
    · intro h
      by_cases hct : (ct_check g carrier o.carrier_target).1 = []
      · have hlt := h hct
        exact Or.inr (lt_check_ne.mp hlt)
      · exact Or.inl (ct_check_ne.mp hct)
    · intro h hct
      rcases h with ⟨ct, hct', hcond⟩ | hlt
      · exact absurd (ct_check_ne.mpr ⟨ct, hct', hcond⟩) (by simp [hct])
      · exact lt_check_ne.mpr hlt

/-- A 2x1 all-sea map and a unit list whose only base squadron has hp 0,
for the C9 counterexample. -/
def c9Map : HexArray := ⟨[[0, 0]]⟩

/-- Units for the C9 counterexample: an active carrier and a base
squadron with hp 0. -/
def c9Units : List GHolder :=
  [⟨⟨"A", true, "A-carrier", 100, 100, 2, 3, ⟨0, 0⟩, none, "", 0⟩, 0, 0, []⟩,
   ⟨⟨"A", false, "A-sq", 0, 40, 4, 3, Position.invalid, none, "base", 22⟩, 0, 0, []⟩]

/-- Counterexample to claim C9 as stated: the side's only base-state
squadron has hp 0 — the claim demands a rejection ("no squadron in state
base with hp>0 exists"), but the code never checks hp and accepts the
launch order with an empty message list. -/
theorem C9_counterexample :
    validate_orders c9Map c9Units "A" (some ⟨none, some ⟨1, 0⟩⟩) = []
      ∧ (c9Units.find? (fun u => u.unit.side == "A" && !u.unit.is_carrier
          && u.unit.state == "base" && decide (u.unit.hp > 0))) = none
      ∧ (c9Units.find? (fun u => u.unit.side == "A" && !u.unit.is_carrier
          && u.unit.state == "base")).isSome = true := by
  refine ⟨?_, ?_, ?_⟩ <;> decide

/-! ### Intel markers (C7): `session._update_player_intel` vs
`match.MatchStore._update_intel` -/

/-- `IntelMarker` as `session.py` builds it (flattened coordinates). -/
structure IntelMarkerS where
  seen : Bool
  x : Option Int
  y : Option Int
  ttl : Int
deriving DecidableEq

/-- `IntelMarker` as `match.py` builds it (a `pos` field). -/
structure IntelMarkerM where
  seen : Bool
  pos : Position
  ttl : Int
deriving DecidableEq

/-- The carrier-marker update of `_update_player_intel` (`session.py`):
on detection the marker is refreshed to `seen=True, ttl=3` at the
carrier's coordinates; otherwise, when a marker exists with positive
ttl, the ttl drops by one (floored at 0) and `seen` becomes
`ttl - 1 > 0`.  `detected` stands for the `key in turn_visible` test. -/
def update_player_intel_carrier (detected : Bool) (ex ey : Option Int)
    (cur : Option IntelMarkerS) : Option IntelMarkerS :=
  if detected then some ⟨true, ex, ey, 3⟩
  else
    match cur with
    | some m =>
        if m.ttl > 0 then
          some ⟨decide (max 0 (m.ttl - 1) > 0), m.x, m.y, max 0 (m.ttl - 1)⟩
        else cur
    | none => none

/-- The per-squadron marker update of `_update_player_intel`
(`session.py`): same refresh/decay rule for a tracked squadron's
marker. -/
def update_player_intel_squadron (detected : Bool) (sx sy : Option Int)
    (cur : Option IntelMarkerS) : Option IntelMarkerS :=
  if detected then some ⟨true, sx, sy, 3⟩
  else
    match cur with
    | some m =>
        if m.ttl > 0 then
          some ⟨decide (max 0 (m.ttl - 1) > 0), m.x, m.y, max 0 (m.ttl - 1)⟩
        else cur
    | none => none

/-- The carrier-marker update of `MatchStore._update_intel`
(`match.py`): on detection refresh to `seen=True, ttl=3`; otherwise the
ttl decays (floored at 0) but `seen` keeps its current value. -/
def update_intel_carrier_match (sees : Bool) (op_pos : Position)
    (cur : Option IntelMarkerM) : Option IntelMarkerM :=
  if sees then some ⟨true, op_pos, 3⟩
  else
    match cur with
    | some c => some ⟨c.seen, c.pos, max 0 (c.ttl - 1)⟩
    | none => none

/-- Claim C7 (amended): the session-side marker updater refreshes a
detected marker to `seen=true, ttl=3` at the unit's position; on
non-detection a live marker's ttl drops by exactly one (floored at 0)
and `seen` flips to false exactly when the ttl reaches 0, so a fresh
ttl=3 marker becomes unseen after exactly 3 undetected turns.  The
match-store carrier updater instead keeps `seen` unchanged while the
ttl decays, so its markers never flip to unseen by decay alone. -/
theorem C7_intel_ttl (ex ey : Option Int) :
    (∀ cur, update_player_intel_carrier true ex ey cur = some ⟨true, ex, ey, 3⟩)
      ∧ (∀ m : IntelMarkerS, 0 < m.ttl →
          update_player_intel_carrier false ex ey (some m)
            = some ⟨decide (0 < m.ttl - 1), m.x, m.y, m.ttl - 1⟩)
      ∧ (∀ m : IntelMarkerS, m.ttl ≤ 0 →
          update_player_intel_carrier false ex ey (some m) = some m)
      ∧ (∀ (d : Bool) (cur), update_player_intel_squadron d ex ey cur
          = update_player_intel_carrier d ex ey cur)
      ∧ (update_player_intel_carrier false ex ey
            (update_player_intel_carrier false ex ey (some ⟨true, ex, ey, 3⟩))
          = some ⟨true, ex, ey, 1⟩)
      ∧ (update_player_intel_carrier false ex ey
            (update_player_intel_carrier false ex ey
              (update_player_intel_carrier false ex ey (some ⟨true, ex, ey, 3⟩)))
          = some ⟨false, ex, ey, 0⟩)
      ∧ (∀ (m : IntelMarkerM) (q : Position),
          update_intel_carrier_match false q (some m)
            = some ⟨m.seen, m.pos, max 0 (m.ttl - 1)⟩) := by
  refine ⟨?_, ?_, ?_, ?_, ?_, ?_, ?_⟩
  · intro cur
    rfl
  · intro m hm
    simp only [update_player_intel_carrier, if_neg (by simp : ¬(false = true)),
      if_pos hm]
    have h1 : max 0 (m.ttl - 1) = m.ttl - 1 := by omega
    rw [h1]
  · intro m hm
    simp only [update_player_intel_carrier, if_neg (by simp : ¬(false = true))]
    rw [if_neg (by omega)]
  · intro d cur
    rfl
  · rfl
  · rfl
  · intro m q
    rfl

/-- Counterexample to claim C7 as stated: in the match-store carrier
updater, a fresh `ttl=3` marker decayed on three consecutive undetected
turns ends with `ttl=0` but `seen` still `true` — the claim requires
`seen` to flip to false exactly when the ttl reaches 0. -/
theorem C7_counterexample :
    update_intel_carrier_match false ⟨0, 0⟩
        (update_intel_carrier_match false ⟨0, 0⟩
          (update_intel_carrier_match false ⟨0, 0⟩
            (some ⟨true, ⟨5, 5⟩, 3⟩)))
      = some ⟨true, ⟨5, 5⟩, 0⟩ := by
  rfl

/-! ### Combat damage (C8): `scaled_damage` on exact rationals -/

/-- Python 3 `round()` to an integer: round half to even.  The engine's
float expressions are modelled on `ℚ`; for the base damage values the
engine uses (18, 20, 25) the float and rational computations agree. -/
def rround (q : ℚ) : Int :=
  if q - ⌊q⌋ < 1 / 2 then ⌊q⌋
  else if 1 / 2 < q - ⌊q⌋ then ⌊q⌋ + 1
  else if ⌊q⌋ % 2 = 0 then ⌊q⌋ else ⌊q⌋ + 1

theorem rround_le (q : ℚ) : (rround q : ℚ) ≤ q + 1 / 2 := by
  have hf := Int.floor_le q
  have hc := Int.lt_floor_add_one q
  unfold rround
  split_ifs with h1 h2 h3 <;> push_cast <;> linarith

theorem rround_ge (q : ℚ) : q - 1 / 2 ≤ (rround q : ℚ) := by
  have hf := Int.floor_le q
  have hc := Int.lt_floor_add_one q
  unfold rround
  split_ifs with h1 h2 h3 <;> push_cast <;> linarith

theorem rround_intCast (n : Int) : rround (n : ℚ) = n := by
  unfold rround
  rw [Int.floor_intCast, sub_self]
  norm_num

/-- `scaled_damage` (`turn.py`): damage scaled by the clamped hp
fraction, with a symmetric random variance `v` standing for
`random.randint(-variance, variance)`. -/
def scaled_damage (hp : Option Int) (max_hp : Int) (base : Int) (v : Int) : Int :=
  max 0 (rround
    (((base + (if rround ((base : ℚ) * (2 / 10)) = 0 then 0 else v) : Int) : ℚ)
      * max 0 (min 1 (((hp.getD max_hp : Int) : ℚ) / ((max_hp : Int) : ℚ)))))

/-- `_scaled_damage` (`session.py`): the same body with the fixed
denominator `SQUAD_MAX_HP = 40`. -/
def session_scaled_damage (attacker_hp : Option Int) (base v : Int) : Int :=
  scaled_damage attacker_hp 40 base v

/-- Claim C8 (amended): for 0 ≤ hp ≤ max_hp, max_hp > 0, base ≥ 0 and a
variance draw `v` with `|v| ≤ round(base * 0.2)`, the damage is an
integer between 0 and `base + round(base * 0.2)` (the claim's bound
`base * 1.2` is off by the rounding of the variance), a full-health
attacker deals exactly `base + v` floored at 0, and a zero-hp attacker
deals 0; the session-side `_scaled_damage` is the same function at
`max_hp = 40`. -/
theorem C8_scaled_damage_amended (hp max_hp base v : Int)
    (h1 : 0 ≤ hp) (h2 : hp ≤ max_hp) (h3 : 0 < max_hp) (h4 : 0 ≤ base)
    (h5 : -(rround ((base : ℚ) * (2 / 10))) ≤ v)
    (h6 : v ≤ rround ((base : ℚ) * (2 / 10))) :
    0 ≤ scaled_damage (some hp) max_hp base v
      ∧ scaled_damage (some hp) max_hp base v ≤ base + rround ((base : ℚ) * (2 / 10))
      ∧ (hp = max_hp → scaled_damage (some hp) max_hp base v
          = max 0 (base + (if rround ((base : ℚ) * (2 / 10)) = 0 then 0 else v)))
      ∧ (hp = 0 → scaled_damage (some hp) max_hp base v = 0)
      ∧ session_scaled_damage (some hp) base v = scaled_damage (some hp) 40 base v := by
  have hvnn : 0 ≤ rround ((base : ℚ) * (2 / 10)) := by
    have hg := rround_ge ((base : ℚ) * (2 / 10))
    have hq : (0 : ℚ) ≤ (base : ℚ) * (2 / 10) := by
      have : (0 : ℚ) ≤ (base : ℚ) := by exact_mod_cast h4
      linarith
    have h' : (-1 : ℚ) < (rround ((base : ℚ) * (2 / 10)) : ℚ) := by linarith
    have h'' : (-1 : Int) < rround ((base : ℚ) * (2 / 10)) := by exact_mod_cast h'
    omega
  have hvle : rround ((base : ℚ) * (2 / 10)) ≤ base := by
    have hl := rround_le ((base : ℚ) * (2 / 10))
    have hb : (base : ℚ) * (2 / 10) ≤ (base : ℚ) := by
      have : (0 : ℚ) ≤ (base : ℚ) := by exact_mod_cast h4
      linarith
    have h' : (rround ((base : ℚ) * (2 / 10)) : ℚ) < (base : ℚ) + 1 := by linarith
    have h'' : rround ((base : ℚ) * (2 / 10)) < base + 1 := by exact_mod_cast h'
    omega
  have hraw_nn : 0 ≤ base + (if rround ((base : ℚ) * (2 / 10)) = 0 then 0 else v) := by
    by_cases hv0 : rround ((base : ℚ) * (2 / 10)) = 0
    · rw [if_pos hv0]
      omega
    · rw [if_neg hv0]
      omega
  have hraw_le : base + (if rround ((base : ℚ) * (2 / 10)) = 0 then 0 else v)
      ≤ base + rround ((base : ℚ) * (2 / 10)) := by
    by_cases hv0 : rround ((base : ℚ) * (2 / 10)) = 0
    · rw [if_pos hv0]
      omega
    · rw [if_neg hv0]
      omega
  have hs0 : (0 : ℚ) ≤ max 0 (min 1 ((hp : ℚ) / (max_hp : ℚ))) := le_max_left _ _
  have hs1 : max 0 (min 1 ((hp : ℚ) / (max_hp : ℚ))) ≤ 1 :=
    max_le (by norm_num) (min_le_left _ _)
  refine ⟨le_max_left _ _, ?_, ?_, ?_, rfl⟩
  · show max 0 (rround
        (((base + (if rround ((base : ℚ) * (2 / 10)) = 0 then 0 else v) : Int) : ℚ)
          * max 0 (min 1 ((hp : ℚ) / (max_hp : ℚ)))))
      ≤ base + rround ((base : ℚ) * (2 / 10))
    set raw : Int := base + (if rround ((base : ℚ) * (2 / 10)) = 0 then 0 else v)
      with hraw
    have hmul : (raw : ℚ) * max 0 (min 1 ((hp : ℚ) / (max_hp : ℚ))) ≤ (raw : ℚ) := by
      calc (raw : ℚ) * max 0 (min 1 ((hp : ℚ) / (max_hp : ℚ)))
          ≤ (raw : ℚ) * 1 :=
            mul_le_mul_of_nonneg_left hs1 (by exact_mod_cast hraw_nn)
        _ = (raw : ℚ) := mul_one _
    have hle := rround_le ((raw : ℚ) * max 0 (min 1 ((hp : ℚ) / (max_hp : ℚ))))
    have h' : (rround ((raw : ℚ) * max 0 (min 1 ((hp : ℚ) / (max_hp : ℚ)))) : ℚ)
        < (raw : ℚ) + 1 := by linarith
    have h'' : rround ((raw : ℚ) * max 0 (min 1 ((hp : ℚ) / (max_hp : ℚ)))) < raw + 1 := by
      exact_mod_cast h'
    exact max_le (by omega) (by omega)
  · intro he
    subst he
    show max 0 (rround
        (((base + (if rround ((base : ℚ) * (2 / 10)) = 0 then 0 else v) : Int) : ℚ)
          * max 0 (min 1 ((hp : ℚ) / (hp : ℚ)))))
      = max 0 (base + (if rround ((base : ℚ) * (2 / 10)) = 0 then 0 else v))
    have hne : (hp : ℚ) ≠ 0 := by
      have : (0 : ℚ) < (hp : ℚ) := by exact_mod_cast h3
      exact ne_of_gt this
    rw [div_self hne, min_self, max_eq_right (by norm_num : (0 : ℚ) ≤ 1), mul_one,
      rround_intCast]
  · intro he
    subst he
    show max 0 (rround
        (((base + (if rround ((base : ℚ) * (2 / 10)) = 0 then 0 else v) : Int) : ℚ)
          * max 0 (min 1 (((0 : Int) : ℚ) / (max_hp : ℚ)))))
      = 0
    rw [Int.cast_zero, zero_div, min_eq_right (by norm_num : (0 : ℚ) ≤ 1),
      max_self, mul_zero]
    rw [show (0 : ℚ) = ((0 : Int) : ℚ) from by norm_num, rround_intCast]
    rfl

theorem rround_18 : rround ((18 : ℚ) * (2 / 10)) = 4 := by norm_num [rround]

theorem rround_int_25 : rround (((25 : Int) : ℚ) * (2 / 10)) = 5 := by
  norm_num [rround]

/-- Witness for the amended C8 at a full-health attack with base 25 and
maximal positive variance draw. -/
theorem C8_scaled_damage_amended_witness :
    0 ≤ scaled_damage (some 40) 40 25 5
      ∧ scaled_damage (some 40) 40 25 5 ≤ 25 + rround (((25 : Int) : ℚ) * (2 / 10))
      ∧ ((40 : Int) = 40 → scaled_damage (some 40) 40 25 5
          = max 0 (25 + (if rround (((25 : Int) : ℚ) * (2 / 10)) = 0 then 0 else 5)))
      ∧ ((40 : Int) = 0 → scaled_damage (some 40) 40 25 5 = 0)
      ∧ session_scaled_damage (some 40) 25 5 = scaled_damage (some 40) 40 25 5 :=
  C8_scaled_damage_amended 40 40 25 5 (by decide) (by decide) (by decide)
    (by decide) (by rw [rround_int_25]; decide) (by rw [rround_int_25])

/-- Counterexample to claim C8 as stated: with the engine's base damage
18 (`match.py`), the variance is `round(18 * 0.2) = round(3.6) = 4`, so
a full-health attacker with the maximal draw deals 22 damage, exceeding
the claim's bound `18 * 1.2 = 21.6`. -/
theorem C8_counterexample :
    scaled_damage (some 40) 40 18 4 = 22
      ∧ ¬((scaled_damage (some 40) 40 18 4 : ℚ) ≤ 18 * (12 / 10))
      ∧ -(rround ((18 : ℚ) * (2 / 10))) ≤ 4 ∧ 4 ≤ rround ((18 : ℚ) * (2 / 10)) := by
  refine ⟨?_, ?_, ?_, ?_⟩
  · norm_num [scaled_damage, rround_18, rround]
  · norm_num [scaled_damage, rround_18, rround]
  · rw [rround_18]
    decide
  · rw [rround_18]

/-! ### The movement-and-detection tick loop of `turn_forward` (C5) -/

/-- `tick_queue.setdefault(t, []).append(i)` on the virtual-time queue
(a Python dict from time to unit list). -/
def qadd (q : List (Int × List Nat)) (t : Int) (i : Nat) : List (Int × List Nat) :=
  match q with
  | [] => [(t, [i])]
  | (k, l) :: rest => if k == t then (k, l ++ [i]) :: rest else (k, l) :: qadd rest t i

/-- `min(tick_queue.keys())`, `none` when the queue is empty. -/
def qmin : List (Int × List Nat) → Option Int
  | [] => none
  | (k, _) :: rest =>
      match qmin rest with
      | none => some k
      | some m => some (min k m)

/-- The unit list stored under key `t`. -/
def qtake (q : List (Int × List Nat)) (t : Int) : List Nat :=
  ((q.find? (fun e => e.1 == t)).map Prod.snd).getD []

/-- `tick_queue.pop(t)`: drop the entry for key `t`. -/
def qremove (q : List (Int × List Nat)) (t : Int) : List (Int × List Nat) :=
  q.filter (fun e => !(e.1 == t))

/-- `UnitState.can_see_enemy` (`schemas.py`): guarded hex distance
(`INF` when either unit is inactive) compared against the observer's
vision. -/
def can_see (u e : GUnit) : Bool :=
  (if gIsActive u && gIsActive e then ((Position.hex_distance u.pos e.pos : Nat) : Int)
   else ((INF : Nat) : Int)) ≤ u.vision

/-- `next_step` (`turn.py`): the first neighbor, in the
gradient-sorted order produced by `neighbors_by_gradient` (modelled by
the oracle `nbg`), not occupied by an active unit.  Note the source
performs no passability check of its own. -/
def next_step (nbg : Position → Position → Bool → List Position)
    (units : List GHolder) (current target : Position) (il : Bool) :
    Option Position :=
  (nbg current target il).find? (fun pos =>
    units.all (fun ou => !gIsActive ou.unit || !(pos == ou.unit.pos)))

/-- The side's first carrier (`next(...)` in `turn.py`), as an index. -/
def findCarrierIdx (units : List GHolder) (side : String) : Option Nat :=
  units.findIdx? (fun cu => cu.unit.side == side && cu.unit.is_carrier)

/-- The tail of the movement body: apply the step (if any), then
re-enqueue the unit whenever its tick count is still below its speed —
also when the step was `None`. -/
def moveFinish (units : List GHolder) (q : List (Int × List Nat)) (i : Nat)
    (u : GHolder) (next_pos : Option Position) :
    List GHolder × List (Int × List Nat) :=
  let u1 := match next_pos with
    | some np => { u with unit := { u.unit with pos := np }, ticks := u.ticks + 1 }
    | none => u
  let units1 := units.set i u1
  if u1.ticks < u1.unit.speed then
    let u2 := { u1 with next_time := u1.next_time + 1000 / u1.unit.speed }
    (units1.set i u2, qadd q u2.next_time i)
  else (units1, q)

/-- The common tail of the movement body after the returning-squadron
handling: compute `next_step` and finish. -/
def moveCore (nbg : Position → Position → Bool → List Position)
    (units : List GHolder) (q : List (Int × List Nat)) (i : Nat) :
    List GHolder × List (Int × List Nat) :=
  match units[i]? with
  | none => (units, q)
  | some u =>
      match u.unit.target with
      | none => (units, q)
      | some tgt =>
          moveFinish units q i u
            (next_step nbg units u.unit.pos tgt (!u.unit.is_carrier))

/-- The per-unit movement body of the tick loop (`turn_forward`,
`turn.py`): guard, returning-squadron handling (land on the carrier, or
retarget to it), then step and re-enqueue. -/
def moveUnit (nbg : Position → Position → Bool → List Position)
    (s : List GHolder × List (Int × List Nat)) (i : Nat) :
    List GHolder × List (Int × List Nat) :=
  match s.1[i]? with
  | none => s
  | some u =>
      match u.unit.target with
      | none => s
      | some tgt0 =>
          if s.1[i]?.isSome = false then s
          else if u.unit.pos == tgt0 then s
          else if !(decide (u.ticks < u.unit.speed)) then s
          else
            match (if !u.unit.is_carrier && u.unit.state == "returning" then
                findCarrierIdx s.1 u.unit.side
              else none) with
            | some ci =>
                match s.1[ci]? with
                | none => s
                | some cu =>
                    if Position.hex_distance cu.unit.pos u.unit.pos ≤ 1 then
                      let uu := { u.unit with state := "base", pos := Position.invalid, target := none }
                      let u' := { u with unit := uu, ticks := u.unit.speed }
                      let cu' := { cu with ticks := cu.unit.speed }
                      ((s.1.set i u').set ci cu', s.2)
                    else
                      let u' := { u with unit := { u.unit with target := some cu.unit.pos } }
                      moveCore nbg (s.1.set i u') s.2 i
            | none => moveCore nbg s.1 s.2 i

/-- One observer/enemy pair of the detection phase: record the sighting
in the enemy's intel log and, for an outbound squadron spotting a
carrier, retarget the squadron. -/
def detectPair (units : List GHolder) (t : Int) (i j : Nat) : List GHolder :=
  match units[i]?, units[j]? with
  | some u, some e =>
      if (!(i == j)) && !(e.unit.side == u.unit.side) && gIsActive e.unit
          && can_see u.unit e.unit then
        let units1 := units.set j { e with intel := (t, e.unit.pos) :: e.intel }
        if !u.unit.is_carrier && u.unit.state == "outbound" && e.unit.is_carrier then
          units1.set i { u with unit := { u.unit with target := some e.unit.pos } }
        else units1
      else units
  | _, _ => units

/-- The detection phase of one tick iteration. -/
def detectPhase (units : List GHolder) (t : Int) : List GHolder :=
  (List.range units.length).foldl
    (fun us i => (List.range us.length).foldl (fun us2 j => detectPair us2 t i j) us)
    units

/-- The `while tick_queue:` movement-and-detection loop of
`turn_forward` (`turn.py`), with fuel: `none` means the fuel ran out
with the queue still non-empty.  `shuffleO` models `random.shuffle`,
`nbg` models `neighbors_by_gradient`. -/
def tickLoop (shuffleO : Int → List Nat → List Nat)
    (nbg : Position → Position → Bool → List Position) :
    Nat → List GHolder × List (Int × List Nat) → Option (List GHolder)
  | 0, _ => none
  | fuel + 1, s =>
      match qmin s.2 with
      | none => some s.1
      | some t =>
          let s1 := (shuffleO t (qtake s.2 t)).foldl (moveUnit nbg) (s.1, qremove s.2 t)
          tickLoop shuffleO nbg fuel (detectPhase s1.1 t, s1.2)

/-- `random.shuffle` produces a permutation. -/
def ShuffleOk (sh : Int → List Nat → List Nat) : Prop :=
  ∀ t l, (sh t l).Perm l

/-- A 2x2 all-sea map for the C5 failing input. -/
def c5Map : HexArray := ⟨[[0, 0], [0, 0]]⟩

/-- `neighbors_by_gradient` returns the in-bounds offset neighbors of
the start, in some gradient/angle-sorted order (a permutation of the
in-bounds neighbor set, for the 2x2 map). -/
def NbgOk (nbg : Position → Position → Bool → List Position) : Prop :=
  ∀ c t il, (nbg c t il).Perm ((Position.offset_neighbors c).filter
    (fun p => decide (0 ≤ p.x ∧ p.x < (c5Map.W : Int) ∧ 0 ≤ p.y ∧ p.y < (c5Map.H : Int))))

/-- The C5 failing input, unit 0: side A's carrier at the origin,
ordered to `(1,1)`. -/
def c5A : GHolder :=
  ⟨⟨"A", true, "A-carrier", 100, 100, 2, 0, ⟨0, 0⟩, some ⟨1, 1⟩, "", 0⟩, 0, 500, []⟩

/-- Unit 1: side B's stationary carrier on `(1,0)`. -/
def c5B : GHolder :=
  ⟨⟨"B", true, "B-carrier", 100, 100, 3, 0, ⟨1, 0⟩, none, "", 0⟩, 0, 333, []⟩

/-- Unit 2: side B's outbound squadron holding `(0,1)`. -/
def c5S : GHolder :=
  ⟨⟨"B", false, "B-sq", 40, 40, 4, 0, ⟨0, 1⟩, none, "outbound", 0⟩, 0, 250, []⟩

/-- The unit list with side A's carrier re-enqueued for time `m`. -/
def c5Units (m : Int) : List GHolder := [{ c5A with next_time := m }, c5B, c5S]

/-- The queue as `turn_forward` builds it for this input. -/
def c5Init : List GHolder × List (Int × List Nat) :=
  (c5Units 500, [(500, [0]), (333, [1]), (250, [2])])

/-- With every vision radius 0 nothing is ever detected: one
observer/enemy pair of the detection phase changes nothing. -/
theorem c5_detect_pair (k t : Int) (i j : Nat) (hi : i < 3) (hj : j < 3) :
    detectPair (c5Units k) t i j = c5Units k := by
  interval_cases i <;> interval_cases j <;>
    simp [detectPair, c5Units, c5A, c5B, c5S, can_see, gIsActive,
      Position.hex_distance, Position.cube, Position.cube_distance,
      Position.offset_to_axial, Position.axial_to_cube, INF]

/-- The detection phase leaves the failing input's units unchanged. -/
theorem c5_detect_id (k t : Int) : detectPhase (c5Units k) t = c5Units k := by
  have hp := c5_detect_pair k t
  show (List.range (c5Units k).length).foldl
      (fun us i => (List.range us.length).foldl (fun us2 j => detectPair us2 t i j) us)
      (c5Units k) = c5Units k
  have hinner : ∀ i, i < 3 → List.foldl (fun us2 j => detectPair us2 t i j)
      (c5Units k) (List.range 3) = c5Units k := by
    intro i hi
    rw [show List.range 3 = [0, 1, 2] from rfl]
    simp only [List.foldl_cons, List.foldl_nil]
    rw [hp i 0 hi (by omega), hp i 1 hi (by omega), hp i 2 hi (by omega)]
  rw [show (c5Units k).length = 3 from rfl, show List.range 3 = [0, 1, 2] from rfl]
  simp only [List.foldl_cons, List.foldl_nil]
  rw [show (c5Units k).length = 3 from rfl]
  rw [hinner 0 (by omega)]
  rw [show (c5Units k).length = 3 from rfl]
  rw [hinner 1 (by omega)]
  rw [show (c5Units k).length = 3 from rfl]
  rw [hinner 2 (by omega)]

/-- Side A's carrier is boxed in: both of its in-bounds neighbors hold
active units, so `next_step` finds nothing — in any gradient order. -/
theorem c5_blocked (nbg : Position → Position → Bool → List Position)
    (hn : NbgOk nbg) (m : Int) :
    next_step nbg (c5Units m) ⟨0, 0⟩ ⟨1, 1⟩ false = none := by
  apply List.find?_eq_none.mpr
  intro p hp
  have hmem : p ∈ (Position.offset_neighbors ⟨0, 0⟩).filter
      (fun p => decide (0 ≤ p.x ∧ p.x < (c5Map.W : Int) ∧ 0 ≤ p.y ∧ p.y < (c5Map.H : Int))) :=
    (hn ⟨0, 0⟩ ⟨1, 1⟩ false).mem_iff.mp hp
  rw [show (Position.offset_neighbors ⟨0, 0⟩).filter
      (fun p => decide (0 ≤ p.x ∧ p.x < (c5Map.W : Int) ∧ 0 ≤ p.y ∧ p.y < (c5Map.H : Int)))
      = [⟨1, 0⟩, ⟨0, 1⟩] from by decide] at hmem
  rcases List.mem_cons.mp hmem with rfl | hmem
  · exact fun hc => Bool.noConfusion hc
  rcases List.mem_cons.mp hmem with rfl | hmem
  · exact fun hc => Bool.noConfusion hc
  · exact absurd hmem (List.not_mem_nil p)

/-- The blocked carrier does not move but is re-enqueued 500 virtual
milliseconds later. -/
theorem c5_move_blocked (nbg : Position → Position → Bool → List Position)
    (hn : NbgOk nbg) (m : Int) :
    moveUnit nbg (c5Units m, []) 0 = (c5Units (m + 500), [(m + 500, [0])]) := by
  have hns := c5_blocked nbg hn m
  show moveFinish (c5Units m) [] 0 { c5A with next_time := m }
      (next_step nbg (c5Units m) ⟨0, 0⟩ ⟨1, 1⟩ false)
    = (c5Units (m + 500), [(m + 500, [0])])
  rw [hns]
  rfl

/-- First iteration (time 250): the B squadron has no target and simply
leaves the queue. -/
theorem c5_step1 (sh : Int → List Nat → List Nat)
    (nbg : Position → Position → Bool → List Position)
    (hsh : ShuffleOk sh) (fuel : Nat) :
    tickLoop sh nbg (fuel + 1) c5Init
      = tickLoop sh nbg fuel (c5Units 500, [(500, [0]), (333, [1])]) := by
  have h2 : sh 250 [2] = [2] := List.perm_singleton.mp (hsh 250 [2])
  show tickLoop sh nbg fuel
      (detectPhase ((sh 250 [2]).foldl (moveUnit nbg)
          (c5Units 500, [(500, [0]), (333, [1])])).1 250,
        ((sh 250 [2]).foldl (moveUnit nbg)
          (c5Units 500, [(500, [0]), (333, [1])])).2)
    = tickLoop sh nbg fuel (c5Units 500, [(500, [0]), (333, [1])])
  rw [h2]
  show tickLoop sh nbg fuel (detectPhase (c5Units 500) 250, [(500, [0]), (333, [1])])
    = tickLoop sh nbg fuel (c5Units 500, [(500, [0]), (333, [1])])
  rw [c5_detect_id 500 250]

/-- Second iteration (time 333): the B carrier has no target and leaves
the queue. -/
theorem c5_step2 (sh : Int → List Nat → List Nat)
    (nbg : Position → Position → Bool → List Position)
    (hsh : ShuffleOk sh) (fuel : Nat) :
    tickLoop sh nbg (fuel + 1) (c5Units 500, [(500, [0]), (333, [1])])
      = tickLoop sh nbg fuel (c5Units 500, [(500, [0])]) := by
  have h1 : sh 333 [1] = [1] := List.perm_singleton.mp (hsh 333 [1])
  show tickLoop sh nbg fuel
      (detectPhase ((sh 333 [1]).foldl (moveUnit nbg)
          (c5Units 500, [(500, [0])])).1 333,
        ((sh 333 [1]).foldl (moveUnit nbg) (c5Units 500, [(500, [0])])).2)
    = tickLoop sh nbg fuel (c5Units 500, [(500, [0])])
  rw [h1]
  show tickLoop sh nbg fuel (detectPhase (c5Units 500) 333, [(500, [0])])
    = tickLoop sh nbg fuel (c5Units 500, [(500, [0])])
  rw [c5_detect_id 500 333]

/-- Every later iteration pops the blocked A carrier and re-enqueues it
500 virtual milliseconds later: the queue never empties. -/
theorem c5_step3 (sh : Int → List Nat → List Nat)
    (nbg : Position → Position → Bool → List Position)
    (hsh : ShuffleOk sh) (hn : NbgOk nbg) (m : Int) (fuel : Nat) :
    tickLoop sh nbg (fuel + 1) (c5Units m, [(m, [0])])
      = tickLoop sh nbg fuel (c5Units (m + 500), [(m + 500, [0])]) := by
  have hq1 : qtake [(m, [0])] m = [0] := by
    simp [qtake]
  have hq2 : qremove ([(m, [0])] : List (Int × List Nat)) m = [] := by
    simp [qremove]
  have hsh0 : sh m [0] = [0] := List.perm_singleton.mp (hsh m [0])
  simp only [tickLoop]
  rw [show qmin [(m, [0])] = some m from rfl]
  show tickLoop sh nbg fuel
      (detectPhase ((sh m (qtake [(m, [0])] m)).foldl (moveUnit nbg)
          (c5Units m, qremove [(m, [0])] m)).1 m,
        ((sh m (qtake [(m, [0])] m)).foldl (moveUnit nbg)
          (c5Units m, qremove [(m, [0])] m)).2)
    = tickLoop sh nbg fuel (c5Units (m + 500), [(m + 500, [0])])
  rw [hq1, hq2, hsh0]
  show tickLoop sh nbg fuel
      (detectPhase (moveUnit nbg (c5Units m, []) 0).1 m, (moveUnit nbg (c5Units m, []) 0).2)
    = tickLoop sh nbg fuel (c5Units (m + 500), [(m + 500, [0])])
  rw [c5_move_blocked nbg hn m]
  show tickLoop sh nbg fuel (detectPhase (c5Units (m + 500)) m, [(m + 500, [0])])
    = tickLoop sh nbg fuel (c5Units (m + 500), [(m + 500, [0])])
  rw [c5_detect_id (m + 500) m]

/-- From any re-enqueued state the loop exhausts any fuel. -/
theorem c5_run (sh : Int → List Nat → List Nat)
    (nbg : Position → Position → Bool → List Position)
    (hsh : ShuffleOk sh) (hn : NbgOk nbg) :
    ∀ (fuel : Nat) (m : Int), tickLoop sh nbg fuel (c5Units m, [(m, [0])]) = none
  | 0, _ => rfl
  | fuel + 1, m => by
      rw [c5_step3 sh nbg hsh hn m fuel]
      exact c5_run sh nbg hsh hn fuel (m + 500)

/-- Claim C5 is refuted by the code: on the boxed-in failing input, the
blocked carrier takes no step yet is re-enqueued into the virtual-time
queue (the re-enqueue in `turn_forward` is outside the
`if next_pos is not None:` block), so the movement-and-detection loop
never terminates, for every shuffle order and every gradient ordering
of the neighbor lists. -/
theorem C5_blocked_unit_requeued_loop_diverges
    (sh : Int → List Nat → List Nat)
    (nbg : Position → Position → Bool → List Position)
    (hsh : ShuffleOk sh) (hn : NbgOk nbg) :
    next_step nbg (c5Units 500) ⟨0, 0⟩ ⟨1, 1⟩ false = none
      ∧ moveUnit nbg (c5Units 500, []) 0 = (c5Units 1000, [(1000, [0])])
      ∧ ∀ fuel, tickLoop sh nbg fuel c5Init = none := by
  refine ⟨c5_blocked nbg hn 500, c5_move_blocked nbg hn 500, ?_⟩
  intro fuel
  match fuel with
  | 0 => rfl
  | 1 =>
      rw [c5_step1 sh nbg hsh 0]
      rfl
  | n + 2 =>
      rw [c5_step1 sh nbg hsh (n + 1), c5_step2 sh nbg hsh n]
      exact c5_run sh nbg hsh hn n 500

/-- Witness for C5: the identity shuffle and the unsorted in-bounds
neighbor lists satisfy the oracle contracts, and the loop diverges. -/
theorem C5_blocked_unit_requeued_loop_diverges_witness :
    tickLoop (fun _ l => l)
        (fun c _ _ => (Position.offset_neighbors c).filter
          (fun p => decide (0 ≤ p.x ∧ p.x < (c5Map.W : Int) ∧ 0 ≤ p.y ∧ p.y < (c5Map.H : Int))))
        5 c5Init = none :=
  (C5_blocked_unit_requeued_loop_diverges (fun _ l => l)
    (fun c _ _ => (Position.offset_neighbors c).filter
      (fun p => decide (0 ≤ p.x ∧ p.x < (c5Map.W : Int) ∧ 0 ≤ p.y ∧ p.y < (c5Map.H : Int))))
    (fun _ l => List.Perm.refl l) (fun c _ _ => List.Perm.refl _)).2.2 5

end CarrierWar
